import Mathlib

/-!
Verification development for the `kibana` backup/restore manager
(`kibana/manager.py`): a shallow embedding of `KibanaManager` and of the
JSON serialization used by its file import/export paths, together with
theorems settling the specification's claims.

Modelling conventions:
* Python strings are `List Char` (`Str`); Python JSON values are `Json`
  (numbers restricted to integers: float payloads are outside the model).
* A Python dict with string keys is an association list `List (Str × Json)`
  with insertion-order iteration, updated by `dinsert` (update-in-place,
  append-if-new, matching CPython dict semantics).
* `json.dumps(obj, sort_keys=True, indent=4, separators=(',', ': '))` is
  `json_dumps`; `json.loads` is `jloads`, a recursive-descent parser over
  the input characters (fuelled by input length, which suffices).
* The Elasticsearch client is an external collaborator: search results are
  passed in as `Hit` lists, the delete endpoint as a function parameter, and
  write endpoints are recorded as `EsOp` values in the order the code would
  issue them.
* Python exceptions are `PyErr`; a function that can raise returns
  `Except PyErr _`.  `get_dashboard_full` returns
  `Except PyErr (Option Dict)`: `.ok none` models Python's implicit
  `return None` when the loop falls off the end.
-/

namespace Kibana

/-- Python strings as lists of unicode scalar values. -/
abbrev Str := List Char

/-- Conversion from Lean string literals to the `Str` model. -/
def st (s : String) : Str := s.data

/-- Python JSON values (ints only: floats are outside this model). -/
inductive Json where
  | null
  | bool (b : Bool)
  | num (n : Int)
  | str (s : Str)
  | arr (xs : List Json)
  | obj (kvs : List (Str × Json))

instance : Inhabited Json := ⟨Json.null⟩

/-- Python exceptions raised by the modelled code paths. -/
inductive PyErr where
  | keyError (k : Str)
  | typeError
  | valueError
  | exception (msg : Str)

/-- First-match lookup in an association list (CPython dicts have unique
keys, so first match is the match). -/
def lookupJ (k : Str) : List (Str × Json) → Option Json
  | [] => none
  | (k', v) :: rest => if k' = k then some v else lookupJ k rest

/-- CPython dict assignment `d[k] = v`: update in place if the key exists,
append otherwise. -/
def dinsert (k : Str) (v : Json) : List (Str × Json) → List (Str × Json)
  | [] => [(k, v)]
  | (k', v') :: rest => if k' = k then (k', v) :: rest else (k', v') :: dinsert k v rest

/-- Python subscript `o[k]` for a string key: `KeyError` on a dict without
the key, `TypeError` on a non-dict. -/
def pyGet (o : Json) (k : Str) : Except PyErr Json :=
  match o with
  | .obj kvs =>
    match lookupJ k kvs with
    | some v => .ok v
    | none => .error (.keyError k)
  | _ => .error .typeError

/-- Test `v is None or v == ""` as the manager's validation checks do: only
`None` and the empty string pass, in particular the empty OBJECT does not. -/
def isNoneOrEmpty (v : Json) : Bool :=
  match v with
  | .null => true
  | .str s => s.isEmpty
  | _ => false

/-- JSON whitespace as taken by the `json` module's decoder. -/
def isWs (c : Char) : Bool := c = ' ' || c = '\t' || c = '\n' || c = '\r'

/-- Drop leading JSON whitespace. -/
def skipWs : Str → Str
  | [] => []
  | c :: rest => if isWs c then skipWs rest else c :: rest

/-- Does the string start with the given character. -/
def headIs (s : Str) (c : Char) : Bool :=
  match s with
  | x :: _ => x = c
  | [] => false

/-! JSON serialization: the model of
`json.dumps(obj, sort_keys=True, indent=4, separators=(',', ': '))`. -/

/-- Decimal digit character for `n < 10`. -/
def digitChar (n : Nat) : Char := Char.ofNat (48 + n)

/-- Decimal digits of a natural number, most significant first, as
produced by Python's `str` of an `int`. -/
def natToDigs (n : Nat) : Str :=
  if h : n < 10 then [digitChar n]
  else natToDigs (n / 10) ++ [digitChar (n % 10)]
  decreasing_by exact Nat.div_lt_self (by omega) (by omega)

/-- Python `str` of an `int`. -/
def intToStr (n : Int) : Str :=
  if n < 0 then '-' :: natToDigs n.natAbs else natToDigs n.toNat

/-- Lowercase hexadecimal digit character for `n < 16`. -/
def toHexDig (n : Nat) : Char :=
  if n < 10 then Char.ofNat (48 + n) else Char.ofNat (87 + n)

/-- Four lowercase hex digits of `n % 0x10000`, as in Python's `'A'`
style escapes. -/
def toHex4 (n : Nat) : Str :=
  [toHexDig (n / 4096 % 16), toHexDig (n / 256 % 16), toHexDig (n / 16 % 16), toHexDig (n % 16)]

/-- A `\uXXXX` escape sequence. -/
def uEsc (n : Nat) : Str := '\\' :: 'u' :: toHex4 n

/-- Escape one character as `json.dumps` with `ensure_ascii=True` does:
printable ASCII other than quote and backslash is literal, the well-known
control characters use two-character escapes, everything else uses
`\uXXXX` (a surrogate pair above `0xFFFF`). -/
def escC (c : Char) : Str :=
  if c = '"' then ['\\', '"']
  else if c = '\\' then ['\\', '\\']
  else if c = Char.ofNat 8 then ['\\', 'b']
  else if c = '\t' then ['\\', 't']
  else if c = '\n' then ['\\', 'n']
  else if c = Char.ofNat 12 then ['\\', 'f']
  else if c = Char.ofNat 13 then ['\\', 'r']
  else if c.toNat < 0x20 then uEsc c.toNat
  else if c.toNat ≤ 0x7e then [c]
  else if c.toNat < 0x10000 then uEsc c.toNat
  else uEsc (0xd800 + (c.toNat - 0x10000) / 0x400) ++ uEsc (0xdc00 + (c.toNat - 0x10000) % 0x400)

/-- Escape every character of a string body. -/
def escStr : Str → Str
  | [] => []
  | c :: rest => escC c ++ escStr rest

/-- Render a JSON string literal, quotes included. -/
def renderStr (s : Str) : Str := '"' :: (escStr s ++ ['"'])

/-- Newline plus the indentation of nesting level `lvl` (4 spaces each),
as `json.dumps(..., indent=4)` inserts before every element. -/
def nlInd (lvl : Nat) : Str := '\n' :: List.replicate (4 * lvl) ' '

mutual
/-- Node count of a JSON value; used as a fuel bound for the parser. -/
def jsize : Json → Nat
  | .null => 1
  | .bool _ => 1
  | .num _ => 1
  | .str _ => 1
  | .arr xs => 1 + jsizeItems xs
  | .obj kvs => 1 + jsizeMembers kvs
/-- Node count of an array's element list. -/
def jsizeItems : List Json → Nat
  | [] => 1
  | x :: xs => 1 + jsize x + jsizeItems xs
/-- Node count of an object's member list. -/
def jsizeMembers : List (Str × Json) → Nat
  | [] => 1
  | kv :: rest => 1 + jsize kv.2 + jsizeMembers rest
end

mutual
/-- Pretty-print a JSON value at nesting level `lvl`, exactly as
`json.dumps(v, indent=4, separators=(',', ': '))` lays it out.  Keys are
emitted in list order: `json_dumps` applies `sortKeys` first to model
`sort_keys=True`. -/
def renderPlain (lvl : Nat) : Json → Str
  | .null => st "null"
  | .bool true => st "true"
  | .bool false => st "false"
  | .num n => intToStr n
  | .str s => renderStr s
  | .arr [] => ['[', ']']
  | .arr (x :: xs) =>
    '[' :: (nlInd (lvl + 1) ++ renderPlain (lvl + 1) x ++ renderItems (lvl + 1) xs
      ++ nlInd lvl ++ [']'])
  | .obj [] => ['\x7b', '\x7d']
  | .obj (kv :: rest) =>
    '\x7b' :: (nlInd (lvl + 1) ++ renderMember (lvl + 1) kv ++ renderMembers (lvl + 1) rest
      ++ nlInd lvl ++ ['\x7d'])
/-- Render the remaining array elements, each preceded by `,` and fresh
indentation. -/
def renderItems (lvl : Nat) : List Json → Str
  | [] => []
  | x :: xs => ',' :: (nlInd lvl ++ renderPlain lvl x ++ renderItems lvl xs)
/-- Render one `"key": value` member. -/
def renderMember (lvl : Nat) : Str × Json → Str
  | (k, v) => renderStr k ++ ':' :: ' ' :: renderPlain lvl v
/-- Render the remaining object members, each preceded by `,` and fresh
indentation. -/
def renderMembers (lvl : Nat) : List (Str × Json) → Str
  | [] => []
  | kv :: rest => ',' :: (nlInd lvl ++ renderMember lvl kv ++ renderMembers lvl rest)
end

/-- Strict lexicographic order on strings by unicode scalar value, as
Python `<` on `str` compares. -/
def strLtB : Str → Str → Bool
  | [], [] => false
  | [], _ :: _ => true
  | _ :: _, [] => false
  | a :: as, b :: bs =>
    if a.toNat < b.toNat then true
    else if b.toNat < a.toNat then false
    else strLtB as bs

/-- Insert a member into a key-sorted member list (ascending). -/
def insertByKey (p : Str × Json) : List (Str × Json) → List (Str × Json)
  | [] => [p]
  | q :: rest => if strLtB q.1 p.1 then q :: insertByKey p rest else p :: q :: rest

/-- Sort a member list by key, as `sorted(d.items())` orders the members
`json.dumps(..., sort_keys=True)` emits (keys are unique in a dict, so
comparison never reaches the values). -/
def sortByKey : List (Str × Json) → List (Str × Json)
  | [] => []
  | p :: rest => insertByKey p (sortByKey rest)

mutual
/-- Recursively sort every object's members by key.  `json.dumps` with
`sort_keys=True` emits members in this order at every nesting level. -/
def sortKeys : Json → Json
  | .null => .null
  | .bool b => .bool b
  | .num n => .num n
  | .str s => .str s
  | .arr xs => .arr (sortKeysList xs)
  | .obj kvs => .obj (sortByKey (sortKeysMembers kvs))
/-- `sortKeys` mapped over array elements. -/
def sortKeysList : List Json → List Json
  | [] => []
  | x :: xs => sortKeys x :: sortKeysList xs
/-- `sortKeys` mapped over member values. -/
def sortKeysMembers : List (Str × Json) → List (Str × Json)
  | [] => []
  | (k, v) :: rest => (k, sortKeys v) :: sortKeysMembers rest
end

/-- The manager's `json_dumps`:
`json.dumps(obj, sort_keys=True, indent=4, separators=(',', ': '))`. -/
def json_dumps (obj : Json) : Str := renderPlain 0 (sortKeys obj)

/-! JSON parsing: the model of `json.loads`. -/

/-- Value of one hexadecimal digit character (either case). -/
def fromHexDig (c : Char) : Option Nat :=
  if 48 ≤ c.toNat ∧ c.toNat ≤ 57 then some (c.toNat - 48)
  else if 97 ≤ c.toNat ∧ c.toNat ≤ 102 then some (c.toNat - 87)
  else if 65 ≤ c.toNat ∧ c.toNat ≤ 70 then some (c.toNat - 55)
  else none

/-- Value of a four-hex-digit escape body. -/
def hexVal (a b c d : Char) : Option Nat := do
  let va ← fromHexDig a
  let vb ← fromHexDig b
  let vc ← fromHexDig c
  let vd ← fromHexDig d
  pure (va * 4096 + vb * 256 + vc * 16 + vd)

/-- Combine a UTF-16 surrogate pair into one scalar value. -/
def combineSurr (hi lo : Nat) : Nat := 0x10000 + (hi - 0xd800) * 0x400 + (lo - 0xdc00)

/-- Prepend a character to the string component of a string-parse result. -/
def mapCons (c : Char) : Option (Str × Str) → Option (Str × Str)
  | some (s, rest) => some (c :: s, rest)
  | none => none

/-- Parse a JSON string body (after the opening quote) up to and past the
closing quote.  Raw control characters are rejected (strict mode), escapes
are decoded, `\uXXXX` high/low surrogate pairs are combined; a lone
surrogate escape is rejected (it is unrepresentable as a scalar value and
never produced by the encoder).  The fuel argument only bounds the number
of decoded characters; callers pass the input length plus one, which is
always sufficient since every decoded character consumes input. -/
def parseStrBody : Nat → Str → Option (Str × Str)
  | 0, _ => none
  | _ + 1, [] => none
  | fu + 1, c :: rest =>
    if c = '"' then some ([], rest)
    else if c = '\\' then
      match rest with
      | [] => none
      | e :: r0 =>
        if e = '"' then mapCons '"' (parseStrBody fu r0)
        else if e = '\\' then mapCons '\\' (parseStrBody fu r0)
        else if e = '/' then mapCons '/' (parseStrBody fu r0)
        else if e = 'b' then mapCons (Char.ofNat 8) (parseStrBody fu r0)
        else if e = 'f' then mapCons (Char.ofNat 12) (parseStrBody fu r0)
        else if e = 'n' then mapCons '\n' (parseStrBody fu r0)
        else if e = 'r' then mapCons (Char.ofNat 13) (parseStrBody fu r0)
        else if e = 't' then mapCons '\t' (parseStrBody fu r0)
        else if e = 'u' then
          match r0 with
          | a :: b :: c' :: d :: r1 =>
            match hexVal a b c' d with
            | none => none
            | some n =>
              if n < 0xd800 ∨ 0xe000 ≤ n then mapCons (Char.ofNat n) (parseStrBody fu r1)
              else if n < 0xdc00 then
                match r1 with
                | '\\' :: 'u' :: a2 :: b2 :: c2 :: d2 :: r2 =>
                  match hexVal a2 b2 c2 d2 with
                  | none => none
                  | some m =>
                    if 0xdc00 ≤ m ∧ m < 0xe000 then
                      mapCons (Char.ofNat (combineSurr n m)) (parseStrBody fu r2)
                    else none
                | _ => none
              else none
          | _ => none
        else none
    else if c.toNat < 0x20 then none
    else mapCons c (parseStrBody fu rest)

/-- Is `c` a decimal digit. -/
def isDig (c : Char) : Bool := decide (48 ≤ c.toNat) && decide (c.toNat ≤ 57)

/-- Consume a maximal run of decimal digits, accumulating their value. -/
def digsVal (acc : Nat) : Str → Nat × Str
  | [] => (acc, [])
  | c :: rest =>
    if isDig c then digsVal (acc * 10 + (c.toNat - 48)) rest else (acc, c :: rest)

/-- Parse an unsigned JSON integer.  A following `.`, `e` or `E` would
start a float literal, which is outside this model, so it is rejected. -/
def parseNatNum : Str → Option (Nat × Str)
  | [] => none
  | c :: rest =>
    if isDig c then
      let p := digsVal (c.toNat - 48) rest
      match p.2 with
      | d :: _ => if d = '.' ∨ d = 'e' ∨ d = 'E' then none else some p
      | [] => some p
    else none

/-- Parse a JSON integer with optional leading minus. -/
def parseNum : Str → Option (Int × Str)
  | [] => none
  | c :: rest =>
    if c = '-' then
      match parseNatNum rest with
      | some (n, r) => some (-(n : Int), r)
      | none => none
    else
      match parseNatNum (c :: rest) with
      | some (n, r) => some ((n : Int), r)
      | none => none

/-- Build a dict from parsed members in order: later duplicate keys
overwrite earlier ones, as `json.loads` building a Python dict does. -/
def dedupPairs (kvs : List (Str × Json)) : List (Str × Json) :=
  kvs.foldl (fun d kv => dinsert kv.1 kv.2 d) []

mutual
/-- Parse one JSON value after skipping leading whitespace, dispatching on
the first significant character.  The fuel argument only bounds nesting;
`jloads` passes the input length, which is always sufficient. -/
def parseVal : Nat → Str → Option (Json × Str)
  | 0, _ => none
  | f + 1, s =>
    match skipWs s with
    | [] => none
    | c :: r =>
      if c = 'n' then
        match r with
        | 'u' :: 'l' :: 'l' :: r1 => some (.null, r1)
        | _ => none
      else if c = 't' then
        match r with
        | 'r' :: 'u' :: 'e' :: r1 => some (.bool true, r1)
        | _ => none
      else if c = 'f' then
        match r with
        | 'a' :: 'l' :: 's' :: 'e' :: r1 => some (.bool false, r1)
        | _ => none
      else if c = '"' then
        match parseStrBody (r.length + 1) r with
        | some (cs, r1) => some (.str cs, r1)
        | none => none
      else if c = '[' then
        if headIs (skipWs r) ']' then some (.arr [], (skipWs r).tail)
        else
          match parseItems f r with
          | some (xs, r1) => some (.arr xs, r1)
          | none => none
      else if c = '\x7b' then
        if headIs (skipWs r) '\x7d' then some (.obj [], (skipWs r).tail)
        else
          match parseMembers f r with
          | some (kvs, r1) => some (.obj (dedupPairs kvs), r1)
          | none => none
      else
        match parseNum (c :: r) with
        | some (n, r1) => some (.num n, r1)
        | none => none
termination_by structural f _ => f
/-- Parse the comma-separated elements of a non-empty array, up to and
past the closing bracket. -/
def parseItems : Nat → Str → Option (List Json × Str)
  | 0, _ => none
  | f + 1, s =>
    match parseVal f s with
    | none => none
    | some (v, r) =>
      let r' := skipWs r
      if headIs r' ',' then
        match parseItems f r'.tail with
        | some (vs, r2) => some (v :: vs, r2)
        | none => none
      else if headIs r' ']' then some ([v], r'.tail)
      else none
termination_by structural f _ => f
/-- Parse the comma-separated members of a non-empty object, up to and
past the closing brace. -/
def parseMembers : Nat → Str → Option (List (Str × Json) × Str)
  | 0, _ => none
  | f + 1, s =>
    match skipWs s with
    | [] => none
    | c :: r =>
      if c = '"' then
        match parseStrBody (r.length + 1) r with
        | none => none
        | some (k, r1) =>
          match skipWs r1 with
          | [] => none
          | c2 :: r2 =>
            if c2 = ':' then
              match parseVal f r2 with
              | none => none
              | some (v, r3) =>
                let r' := skipWs r3
                if headIs r' ',' then
                  match parseMembers f r'.tail with
                  | some (kvs, r4) => some ((k, v) :: kvs, r4)
                  | none => none
                else if headIs r' '\x7d' then some ([(k, v)], r'.tail)
                else none
            else none
      else none
termination_by structural f _ => f
end

/-- The model of `json.loads`: parse one value, then require only
whitespace to remain.  Anything unparseable raises `ValueError`
(modelled by `none` here; callers convert). -/
def jloads (s : Str) : Option Json :=
  match parseVal (s.length + 1) s with
  | some (j, rest) => if skipWs rest = [] then some j else none
  | none => none

/-! The `KibanaManager` operations. -/

/-- The lazily created Elasticsearch client handle
(`Elasticsearch([...])` carries the configured host and port). -/
structure EsConn where
  host : Str
  port : Int
deriving DecidableEq

/-- The manager's state: configured host, configured index name, the lazy
client handle, and the fixed result-size cap. -/
structure KibanaManager where
  hostIp : Str
  hostPort : Int
  index : Str
  es : Option EsConn
  max_hits : Nat

/-- Model of `KibanaManager.connect_es`: return unchanged when a client
handle exists, otherwise create one from the configured host and port. -/
def connect_es (m : KibanaManager) : KibanaManager :=
  match m.es with
  | some _ => m
  | none => { m with es := some ⟨m.hostIp, m.hostPort⟩ }

/-- A write-side request the manager issues to the Elasticsearch client,
recorded with the argument values the code passes. -/
inductive EsOp where
  | createIdx (index : Json)
  | indexDoc (index id doctype body : Json)
  | deleteDoc (index id doctype : Json)

/-- Model of `KibanaManager.put_object`: the four validation checks in
source order (`_index`, `_id`, `_type`, `_source`, each tested with
`is None or == ""`), then `indices.create` and `index`.  The result pairs
the client requests actually issued with the outcome; a raised exception
issues none of them. -/
def put_object (obj : Json) : List EsOp × Except PyErr Unit :=
  match pyGet obj (st "_index") with
  | .error e => ([], .error e)
  | .ok ix =>
    if isNoneOrEmpty ix then ([], .error (.exception (st "Invalid Object, no index")))
    else match pyGet obj (st "_id") with
    | .error e => ([], .error e)
    | .ok idv =>
      if isNoneOrEmpty idv then ([], .error (.exception (st "Invalid Object, no _id")))
      else match pyGet obj (st "_type") with
      | .error e => ([], .error e)
      | .ok ty =>
        if isNoneOrEmpty ty then ([], .error (.exception (st "Invalid Object, no _type")))
        else match pyGet obj (st "_source") with
        | .error e => ([], .error e)
        | .ok src =>
          if isNoneOrEmpty src then ([], .error (.exception (st "Invalid Object, no _source")))
          else ([.createIdx ix, .indexDoc ix idv ty src], .ok ())

/-- Model of `KibanaManager.del_object`: three validation checks in source
order (each raising the bare message `Invalid Object`), then one `delete`
request whose outcome (`esDel`, the external client) is returned as is —
a not-found error from the client propagates untouched. -/
def del_object (esDel : Json → Json → Json → Except PyErr Unit) (obj : Json) :
    List EsOp × Except PyErr Unit :=
  match pyGet obj (st "_index") with
  | .error e => ([], .error e)
  | .ok ix =>
    if isNoneOrEmpty ix then ([], .error (.exception (st "Invalid Object")))
    else match pyGet obj (st "_id") with
    | .error e => ([], .error e)
    | .ok idv =>
      if isNoneOrEmpty idv then ([], .error (.exception (st "Invalid Object")))
      else match pyGet obj (st "_type") with
      | .error e => ([], .error e)
      | .ok ty =>
        if isNoneOrEmpty ty then ([], .error (.exception (st "Invalid Object")))
        else ([.deleteDoc ix idv ty], esDel ix idv ty)

/-- Model of `KibanaManager.read_object_from_file`, applied to the file's
contents: `json.loads`, raising `ValueError` on malformed input. -/
def read_object_from_file (contents : Str) : Except PyErr Json :=
  match jloads contents with
  | some j => .ok j
  | none => .error .valueError

/-- Model of `KibanaManager.read_pkg_from_file`, applied to the file's
contents: `json.loads` followed by the `obj['docs']` subscript. -/
def read_pkg_from_file (contents : Str) : Except PyErr Json := do
  let obj ← read_object_from_file contents
  pyGet obj (st "docs")

/-- Model of `KibanaManager.write_object_to_file`: the deterministic
file name `TYPE-ID.json` (for string-valued fields) and the file contents
`json_dumps(obj) + '\n'`. -/
def write_object_to_file (obj : Json) : Except PyErr (Str × Str) := do
  let ty ← pyGet obj (st "_type")
  let idv ← pyGet obj (st "_id")
  let tyS := match ty with | .str s => s | _ => []
  let idS := match idv with | .str s => s | _ => []
  pure (tyS ++ '-' :: idS ++ st ".json", json_dumps obj ++ ['\n'])

/-- Model of `KibanaManager.write_pkg_to_file`: wrap the dict's values, in
iteration order, into an object under the single key `docs`, and write
`json_dumps` of it plus a newline to `NAME-Pkg.json`. -/
def write_pkg_to_file (name : Str) (objects : List (Str × Json)) : Str × Str :=
  (name ++ st "-Pkg.json",
    json_dumps (.obj [(st "docs", .arr (objects.map (fun kv => kv.2)))]) ++ ['\n'])

/-- One hit of an Elasticsearch search response, as `get_objects` consumes
it (`hit['_id']`, `hit['_type']`, `hit['_source']`; the hit's own `_index`
is present but unused by the code). -/
structure Hit where
  hid : Str
  htype : Str
  hsource : Json
  hindex : Str

/-- The normalized document `get_objects` builds for one hit, in the
insertion order of the source: `_index` is the manager's configured index,
`_type`, `_id` and `_source` are copied from the hit. -/
def mkDoc (storeIndex : Str) (h : Hit) : Json :=
  .obj [(st "_index", .str storeIndex), (st "_type", .str h.htype),
        (st "_id", .str h.hid), (st "_source", h.hsource)]

/-- Model of `KibanaManager.get_objects` applied to the client's search
response: fold the hits into a dict keyed by `_id` (a later hit with the
same id overwrites the earlier document, as repeated dict assignment
does). -/
def get_objects (storeIndex : Str) (hits : List Hit) : List (Str × Json) :=
  hits.foldl (fun d h => dinsert h.hid (mkDoc storeIndex h) d) []

/-- Outcome of processing one panel descriptor inside the
`try`/`except KeyError` block of `get_dashboard_full`. -/
inductive PanelOut where
  | perr (e : PyErr)
  | emptyRet
  | cont (objects : List (Str × Json))

/-- Python equality test `name == v` between a string and a JSON value. -/
def isStrEq (v : Json) (name : Str) : Bool :=
  match v with
  | .str s => s = name
  | _ => false

/-- One matching loop of `get_dashboard_full` (`for vname, vval in
vizs.iteritems(): if vname == panel['id']: objects[vname] = vval`): the
subscript `panel['id']` is evaluated once per iteration, so on an empty
dict it is never evaluated at all; a `KeyError` from it is the one the
surrounding `except KeyError` turns into `return {}` (`emptyRet`), while
any other error (e.g. `TypeError` on a non-dict panel) propagates. -/
def scanMatches (panel : Json) : List (Str × Json) → List (Str × Json) → PanelOut
  | [], objects => .cont objects
  | (n, v) :: rest, objects =>
    match pyGet panel (st "id") with
    | .error (.keyError _) => .emptyRet
    | .error e => .perr e
    | .ok pid =>
      scanMatches panel rest (if isStrEq pid n then dinsert n v objects else objects)

/-- The `for panel in panels` loop of `get_dashboard_full`: scan the
visualizations, then the saved searches, for each panel in order;
a caught `KeyError` returns the empty dict for the whole call. -/
def panelLoop (vizs searches : List (Str × Json)) :
    List Json → List (Str × Json) → Except PyErr (Option (List (Str × Json)))
  | [], objects => .ok (some objects)
  | panel :: rest, objects =>
    match scanMatches panel vizs objects with
    | .perr e => .error e
    | .emptyRet => .ok (some [])
    | .cont o1 =>
      match scanMatches panel searches o1 with
      | .perr e => .error e
      | .emptyRet => .ok (some [])
      | .cont o2 => panelLoop vizs searches rest o2

/-- Python `json.loads` applied to a value read out of a document:
`TypeError` unless it is a string, `ValueError` unless the string parses. -/
def jloadsPy (v : Json) : Except PyErr Json :=
  match v with
  | .str s =>
    match jloads s with
    | some j => .ok j
    | none => .error .valueError
  | _ => .error .typeError

/-- Python iteration `for panel in panels` over a JSON value: a list
yields its elements, a dict its keys, a string its characters, anything
else raises `TypeError`. -/
def pyIter (v : Json) : Except PyErr (List Json) :=
  match v with
  | .arr xs => .ok xs
  | .obj kvs => .ok (kvs.map (fun kv => Json.str kv.1))
  | .str s => .ok (s.map (fun c => Json.str [c]))
  | _ => .error .typeError

/-- The body `get_dashboard_full` runs once the dashboard is found:
`objects[name] = val`, then
`panels = json.loads(val['_source']['panelsJSON'])` — note these
subscripts and the parse happen OUTSIDE the `try`, so their errors
propagate — then the panel loop. -/
def processDash (vizs searches : List (Str × Json)) (name : Str) (val : Json) :
    Except PyErr (Option (List (Str × Json))) :=
  match pyGet val (st "_source") with
  | .error e => .error e
  | .ok src =>
    match pyGet src (st "panelsJSON") with
    | .error e => .error e
    | .ok pj =>
      match jloadsPy pj with
      | .error e => .error e
      | .ok panels =>
        match pyIter panels with
        | .error e => .error e
        | .ok ps => panelLoop vizs searches ps [(name, val)]

/-- The `for name, val in dashboards.iteritems()` loop of
`get_dashboard_full`: process the first entry whose key equals the
requested id; falling off the end returns Python `None` (`.ok none`). -/
def gdfLoop (vizs searches : List (Str × Json)) (dboard : Str) :
    List (Str × Json) → Except PyErr (Option (List (Str × Json)))
  | [] => .ok none
  | (name, val) :: rest =>
    if name = dboard then processDash vizs searches name val
    else gdfLoop vizs searches dboard rest

/-- Model of `KibanaManager.get_dashboard_full`, applied to the three
search responses the code fetches (dashboards, visualizations, saved
searches). -/
def get_dashboard_full (storeIndex : Str) (dHits vHits sHits : List Hit)
    (dboard : Str) : Except PyErr (Option (List (Str × Json))) :=
  gdfLoop (get_objects storeIndex vHits) (get_objects storeIndex sHits) dboard
    (get_objects storeIndex dHits)

/-! Python value equality (`==`) and well-formedness of dict keys. -/

mutual
/-- Python `==` on JSON values: structural on scalars and lists, key-based
on dicts (equal sizes and every member of the left dict present with an
equal value in the right one — CPython dict equality, order-insensitive). -/
def pyEq : Json → Json → Bool
  | .null, .null => true
  | .bool a, .bool b => a = b
  | .num a, .num b => a = b
  | .str a, .str b => a = b
  | .arr a, .arr b => pyEqList a b
  | .obj a, .obj b => a.length = b.length && pyEqMems a b
  | _, _ => false
termination_by j _ => sizeOf j
/-- Pointwise `pyEq` on lists of equal length. -/
def pyEqList : List Json → List Json → Bool
  | [], [] => true
  | x :: xs, y :: ys => pyEq x y && pyEqList xs ys
  | _, _ => false
termination_by l _ => sizeOf l
/-- Every member of the first list looks up equal in the second. -/
def pyEqMems : List (Str × Json) → List (Str × Json) → Bool
  | [], _ => true
  | kv :: rest, b =>
    (match lookupJ kv.1 b with
     | some w => pyEq kv.2 w
     | none => false) && pyEqMems rest b
termination_by l _ => sizeOf l
decreasing_by
  all_goals simp_wf
  all_goals cases kv
  all_goals simp
  all_goals omega
end

/-- Key membership in an association list. -/
def keyMem (k : Str) : List (Str × Json) → Bool
  | [] => false
  | (k', _) :: rest => k' = k || keyMem k rest

/-- All keys distinct. -/
def nodupKeys : List (Str × Json) → Bool
  | [] => true
  | (k, _) :: rest => !keyMem k rest && nodupKeys rest

mutual
/-- Well-formedness as a value of a CPython dict tree: every object in the
tree has pairwise distinct keys.  Values built by Python itself (loaded
files, search hits) always satisfy this. -/
def wfJ : Json → Bool
  | .null => true
  | .bool _ => true
  | .num _ => true
  | .str _ => true
  | .arr xs => wfItems xs
  | .obj kvs => nodupKeys kvs && wfMems kvs
/-- `wfJ` over array elements. -/
def wfItems : List Json → Bool
  | [] => true
  | x :: xs => wfJ x && wfItems xs
/-- `wfJ` over member values. -/
def wfMems : List (Str × Json) → Bool
  | [] => true
  | kv :: rest => wfJ kv.2 && wfMems rest
end

/-- The continuation after a rendered number must not start with a digit
(it would extend the literal) nor with a float continuation character. -/
def numOkHead : Str → Prop := fun s =>
  match s with
  | [] => True
  | c :: _ => isDig c = false ∧ c ≠ '.' ∧ c ≠ 'e' ∧ c ≠ 'E'

/-- The continuation after a digit run must not start with a digit. -/
def headNotDig : Str → Prop := fun s =>
  match s with
  | [] => True
  | c :: _ => isDig c = false

/-! Basic dict lemmas. -/

theorem lookupJ_dinsert (k k' : Str) (v : Json) (d : List (Str × Json)) :
    lookupJ k (dinsert k' v d) = if k' = k then some v else lookupJ k d := by
  induction d with
  | nil => simp [dinsert, lookupJ]
  | cons q rest ih =>
    obtain ⟨kq, vq⟩ := q
    by_cases hq : kq = k'
    · subst hq
      by_cases hk : kq = k
      · subst hk
        simp [dinsert, lookupJ]
      · simp [dinsert, lookupJ, hk]
    · by_cases hk : kq = k
      · subst hk
        have hk' : k' ≠ kq := fun h => hq h.symm
        simp [dinsert, lookupJ, hq, hk']
      · simp [dinsert, lookupJ, hq, hk, ih]

theorem lookupJ_none_iff (k : Str) (d : List (Str × Json)) :
    lookupJ k d = none ↔ ∀ kv ∈ d, kv.1 ≠ k := by
  induction d with
  | nil => simp [lookupJ]
  | cons q rest ih =>
    obtain ⟨kq, vq⟩ := q
    by_cases hk : kq = k
    · subst hk
      simp [lookupJ]
    · simp [lookupJ, hk, ih]

theorem keyMem_false_iff (k : Str) (d : List (Str × Json)) :
    keyMem k d = false ↔ ∀ kv ∈ d, kv.1 ≠ k := by
  induction d with
  | nil => simp [keyMem]
  | cons q rest ih =>
    obtain ⟨kq, vq⟩ := q
    simp [keyMem, ih]

theorem dinsert_of_not_mem (k : Str) (v : Json) (d : List (Str × Json))
    (h : ∀ kv ∈ d, kv.1 ≠ k) : dinsert k v d = d ++ [(k, v)] := by
  induction d with
  | nil => simp [dinsert]
  | cons q rest ih =>
    obtain ⟨kq, vq⟩ := q
    have hq : kq ≠ k := h (kq, vq) (by simp)
    simp [dinsert, hq, ih (fun kv hkv => h kv (by simp [hkv]))]

theorem mem_dinsert (k : Str) (v : Json) (d : List (Str × Json)) (kv : Str × Json)
    (h : kv ∈ dinsert k v d) : kv = (k, v) ∨ kv ∈ d := by
  induction d with
  | nil => simpa [dinsert] using h
  | cons q rest ih =>
    obtain ⟨kq, vq⟩ := q
    by_cases hq : kq = k
    · subst hq
      simp [dinsert] at h
      rcases h with h | h
      · left; simp [h]
      · right; simp [h]
    · simp [dinsert, hq] at h
      rcases h with h | h
      · right; simp [h]
      · rcases ih h with h' | h'
        · left; exact h'
        · right; simp [h']

theorem nodupKeys_dinsert (k : Str) (v : Json) (d : List (Str × Json))
    (h : nodupKeys d = true) : nodupKeys (dinsert k v d) = true := by
  induction d with
  | nil => simp [dinsert, nodupKeys, keyMem]
  | cons q rest ih =>
    obtain ⟨kq, vq⟩ := q
    simp [nodupKeys] at h
    by_cases hq : kq = k
    · subst hq
      simp [dinsert, nodupKeys, h.1, h.2]
    · have hkm : keyMem kq (dinsert k v rest) = false := by
        rw [keyMem_false_iff] at h ⊢
        intro kv hkv
        rcases mem_dinsert _ _ _ _ hkv with h' | h'
        · simp [h']; exact fun hc => hq hc.symm
        · exact h.1 kv h'
      simp [dinsert, hq, nodupKeys, hkm, ih h.2]

/-! Lemmas about `get_objects`. -/

theorem get_objects_aux_mem (storeIndex : Str) (hits : List Hit)
    (d0 : List (Str × Json)) (kv : Str × Json)
    (h : kv ∈ hits.foldl (fun d h => dinsert h.hid (mkDoc storeIndex h) d) d0) :
    kv ∈ d0 ∨ ∃ ht ∈ hits, kv = (ht.hid, mkDoc storeIndex ht) := by
  induction hits generalizing d0 with
  | nil => left; simpa using h
  | cons ht rest ih =>
    simp only [List.foldl_cons] at h
    rcases ih _ h with h' | h'
    · rcases mem_dinsert _ _ _ _ h' with h'' | h''
      · right; exact ⟨ht, by simp, h''⟩
      · left; exact h''
    · right
      obtain ⟨ht', hmem, hkv⟩ := h'
      exact ⟨ht', by simp [hmem], hkv⟩

theorem get_objects_mem (storeIndex : Str) (hits : List Hit) (kv : Str × Json)
    (h : kv ∈ get_objects storeIndex hits) :
    ∃ ht ∈ hits, kv = (ht.hid, mkDoc storeIndex ht) := by
  rcases get_objects_aux_mem storeIndex hits [] kv h with h' | h'
  · simp at h'
  · exact h'

theorem nodupKeys_get_objects (storeIndex : Str) (hits : List Hit) :
    nodupKeys (get_objects storeIndex hits) = true := by
  have aux : ∀ (l : List Hit) (d0 : List (Str × Json)), nodupKeys d0 = true →
      nodupKeys (l.foldl (fun d h => dinsert h.hid (mkDoc storeIndex h) d) d0) = true := by
    intro l
    induction l with
    | nil => intro d0 h; simpa using h
    | cons ht rest ih =>
      intro d0 h
      exact ih _ (nodupKeys_dinsert _ _ _ h)
  exact aux hits [] rfl

theorem lookupJ_get_objects_none (storeIndex : Str) (hits : List Hit) (k : Str)
    (h : ∀ ht ∈ hits, ht.hid ≠ k) : lookupJ k (get_objects storeIndex hits) = none := by
  rw [lookupJ_none_iff]
  intro kv hkv
  obtain ⟨ht, hmem, hkv'⟩ := get_objects_mem storeIndex hits kv hkv
  simp [hkv']
  exact h ht hmem

theorem pyGet_mkDoc_id (storeIndex : Str) (h : Hit) :
    pyGet (mkDoc storeIndex h) (st "_id") = .ok (.str h.hid) := rfl

theorem pyGet_mkDoc_index (storeIndex : Str) (h : Hit) :
    pyGet (mkDoc storeIndex h) (st "_index") = .ok (.str storeIndex) := rfl

theorem pyGet_mkDoc_type (storeIndex : Str) (h : Hit) :
    pyGet (mkDoc storeIndex h) (st "_type") = .ok (.str h.htype) := rfl

theorem pyGet_mkDoc_source (storeIndex : Str) (h : Hit) :
    pyGet (mkDoc storeIndex h) (st "_source") = .ok h.hsource := rfl

/-! Lemmas about the panel-matching loops of `get_dashboard_full`. -/

theorem scanMatches_ok_nomatch (panel : Json) (pid : Json)
    (hok : pyGet panel (st "id") = .ok pid) (entries : List (Str × Json))
    (h : ∀ kv ∈ entries, isStrEq pid kv.1 = false) (o : List (Str × Json)) :
    scanMatches panel entries o = .cont o := by
  induction entries generalizing o with
  | nil => rfl
  | cons q rest ih =>
    obtain ⟨n, v⟩ := q
    have hn : isStrEq pid n = false := h (n, v) (by simp)
    simp [scanMatches, hok, hn]
    exact ih (fun kv hkv => h kv (by simp [hkv])) o

theorem scanMatches_ok_found (panel : Json) (pid : Str) (v : Json)
    (hok : pyGet panel (st "id") = .ok (.str pid)) (entries : List (Str × Json))
    (hnd : nodupKeys entries = true) (hl : lookupJ pid entries = some v)
    (o : List (Str × Json)) :
    scanMatches panel entries o = .cont (dinsert pid v o) := by
  induction entries generalizing o with
  | nil => simp [lookupJ] at hl
  | cons q rest ih =>
    obtain ⟨n, w⟩ := q
    simp [nodupKeys] at hnd
    by_cases hn : n = pid
    · subst hn
      simp [lookupJ] at hl
      subst hl
      simp [scanMatches, hok, isStrEq]
      have hnone : ∀ kv ∈ rest, isStrEq (Json.str n) kv.1 = false := by
        intro kv hkv
        have := (keyMem_false_iff n rest).mp (by simpa using hnd.1) kv hkv
        simp [isStrEq]
        exact fun h => absurd h.symm this
      exact scanMatches_ok_nomatch panel _ hok rest hnone _
    · have hn' : n ≠ pid := hn
      have hpn : pid ≠ n := fun h => hn h.symm
      simp [lookupJ, hn'] at hl
      simp [scanMatches, hok, isStrEq, hpn]
      exact ih hnd.2 hl o

theorem scanMatches_ok_cont (panel : Json) (pid : Json)
    (hok : pyGet panel (st "id") = .ok pid) (entries : List (Str × Json))
    (o : List (Str × Json)) :
    ∃ o', scanMatches panel entries o = .cont o' := by
  induction entries generalizing o with
  | nil => exact ⟨o, rfl⟩
  | cons q rest ih =>
    obtain ⟨n, v⟩ := q
    simp [scanMatches, hok]
    exact ih _

theorem scanMatches_keyerr (panel : Json) (k : Str)
    (hke : pyGet panel (st "id") = .error (.keyError k)) (q : Str × Json)
    (entries : List (Str × Json)) (o : List (Str × Json)) :
    scanMatches panel (q :: entries) o = .emptyRet := by
  obtain ⟨n, v⟩ := q
  simp [scanMatches, hke]

theorem gdfLoop_eq_lookup (vizs searches : List (Str × Json)) (dboard : Str)
    (d : List (Str × Json)) :
    gdfLoop vizs searches dboard d =
      match lookupJ dboard d with
      | some val => processDash vizs searches dboard val
      | none => .ok none := by
  induction d with
  | nil => rfl
  | cons q rest ih =>
    obtain ⟨n, v⟩ := q
    by_cases hn : n = dboard
    · subst hn
      simp [gdfLoop, lookupJ]
    · simp [gdfLoop, lookupJ, hn, ih]

theorem panelLoop_bad (vz sr : List (Str × Json)) (hne : vz ≠ [] ∨ sr ≠ [])
    (ps : List Json)
    (hok : ∀ p ∈ ps, (∃ pid, pyGet p (st "id") = .ok pid) ∨
      pyGet p (st "id") = .error (.keyError (st "id")))
    (hbad : ∃ p ∈ ps, pyGet p (st "id") = .error (.keyError (st "id"))) :
    ∀ o, panelLoop vz sr ps o = .ok (some []) := by
  induction ps with
  | nil => simp at hbad
  | cons p rest ih =>
    intro o
    rcases hok p (by simp) with ⟨pid, hpid⟩ | hke
    · obtain ⟨o1, h1⟩ := scanMatches_ok_cont p pid hpid vz o
      obtain ⟨o2, h2⟩ := scanMatches_ok_cont p pid hpid sr o1
      simp only [panelLoop, h1, h2]
      rcases hbad with ⟨p', hp', hbadp⟩
      rcases List.mem_cons.mp hp' with h' | h'
      · subst h'
        rw [hpid] at hbadp
        exact Except.noConfusion hbadp
      · exact ih (fun q hq => hok q (by simp [hq])) ⟨p', h', hbadp⟩ o2
    · cases hvz : vz with
      | cons q vrest =>
        simp only [panelLoop, scanMatches_keyerr p _ hke q vrest o]
      | nil =>
        cases hsr : sr with
        | cons q srest =>
          simp only [panelLoop,
            show scanMatches p ([] : List (Str × Json)) o = .cont o from rfl,
            scanMatches_keyerr p _ hke q srest o]
        | nil =>
          subst hvz hsr
          rcases hne with h | h <;> exact absurd rfl h

/-! Theorems settling the claims. -/

/-- C1 (amended): when no fetched dashboard document has id `X`, the
`for name, val in dashboards.iteritems()` loop finds no match and
`get_dashboard_full` falls off the end, returning Python `None`
(modelled `.ok none`) — not an empty DocumentSet. -/
theorem get_dashboard_full_absent (storeIndex : Str) (dHits vHits sHits : List Hit)
    (X : Str) (h : ∀ ht ∈ dHits, ht.hid ≠ X) :
    get_dashboard_full storeIndex dHits vHits sHits X = .ok none := by
  unfold get_dashboard_full
  rw [gdfLoop_eq_lookup, lookupJ_get_objects_none storeIndex dHits X h]

/-- C1 (counterexample): with no dashboards fetched at all,
`get_dashboard_full` returns Python `None` (`.ok none`), which is not the
empty DocumentSet (`.ok (some [])`) the claim promises. -/
theorem get_dashboard_full_absent_counterexample :
    get_dashboard_full (st ".kibana") [] [] [] (st "missing") = .ok none ∧
    get_dashboard_full (st ".kibana") [] [] [] (st "missing") ≠ .ok (some []) := by
  constructor
  · rfl
  · intro h
    rw [show get_dashboard_full (st ".kibana") [] [] [] (st "missing") = .ok none from rfl] at h
    exact Option.noConfusion (Except.ok.inj h)

/-- C1 (witness): the amended theorem applied to the concrete empty
backend. -/
theorem get_dashboard_full_absent_witness :
    get_dashboard_full (st ".kibana") [] [] [] (st "missing") = .ok none :=
  get_dashboard_full_absent (st ".kibana") [] [] [] (st "missing") (by simp)

/-- C2 (amended): when dashboard `X` is found, its `panelsJSON` parses to
a panel list in which every panel is a dict and some panel lacks `id`,
and at least one visualization or one saved search was fetched, then the
subscript `panel['id']` raises a `KeyError` that the handler turns into
an empty dict result — the fail-fast of the claim.  (When both the
visualization dict and the search dict are empty the subscript is never
evaluated, the `KeyError` never fires, and the dashboard itself is
returned: see the counterexample.) -/
theorem get_dashboard_full_missing_panel_id (storeIndex : Str)
    (dHits vHits sHits : List Hit) (X : Str) (dval src : Json) (ps : Str)
    (panels : List Json)
    (hfound : lookupJ X (get_objects storeIndex dHits) = some dval)
    (hsrc : pyGet dval (st "_source") = .ok src)
    (hpj : pyGet src (st "panelsJSON") = .ok (.str ps))
    (hparse : jloads ps = some (.arr panels))
    (hok : ∀ p ∈ panels, (∃ pid, pyGet p (st "id") = .ok pid) ∨
      pyGet p (st "id") = .error (.keyError (st "id")))
    (hbad : ∃ p ∈ panels, pyGet p (st "id") = .error (.keyError (st "id")))
    (hne : get_objects storeIndex vHits ≠ [] ∨ get_objects storeIndex sHits ≠ []) :
    get_dashboard_full storeIndex dHits vHits sHits X = .ok (some []) := by
  unfold get_dashboard_full
  rw [gdfLoop_eq_lookup]
  simp only [hfound, processDash, hsrc, hpj, jloadsPy, hparse, pyIter]
  exact panelLoop_bad _ _ hne panels hok hbad _

/-- C2 (counterexample): dashboard `d1` has the single panel `{}` (no
`id`), but the backend holds no visualizations and no saved searches, so
the guarded subscript `panel['id']` is never evaluated: the call returns
the dashboard itself, not the empty DocumentSet the claim promises. -/
theorem get_dashboard_full_missing_panel_id_counterexample :
    get_dashboard_full (st ".kibana")
        [⟨st "d1", st "dashboard", .obj [(st "panelsJSON", .str (st "[\x7b\x7d]"))], st ".kibana"⟩]
        [] [] (st "d1") =
      .ok (some [(st "d1",
        mkDoc (st ".kibana")
          ⟨st "d1", st "dashboard", .obj [(st "panelsJSON", .str (st "[\x7b\x7d]"))], st ".kibana"⟩)]) ∧
    get_dashboard_full (st ".kibana")
        [⟨st "d1", st "dashboard", .obj [(st "panelsJSON", .str (st "[\x7b\x7d]"))], st ".kibana"⟩]
        [] [] (st "d1") ≠ .ok (some []) := by
  constructor
  · rfl
  · intro h
    rw [show get_dashboard_full (st ".kibana")
        [⟨st "d1", st "dashboard", .obj [(st "panelsJSON", .str (st "[\x7b\x7d]"))], st ".kibana"⟩]
        [] [] (st "d1") =
      .ok (some [(st "d1",
        mkDoc (st ".kibana")
          ⟨st "d1", st "dashboard", .obj [(st "panelsJSON", .str (st "[\x7b\x7d]"))], st ".kibana"⟩)])
      from rfl] at h
    exact List.noConfusion (Option.some.inj (Except.ok.inj h))

/-- C2 (witness): the amended theorem at a concrete backend holding one
dashboard whose second panel lacks `id` and one visualization. -/
theorem get_dashboard_full_missing_panel_id_witness :
    get_dashboard_full (st ".kibana")
        [⟨st "d1", st "dashboard",
          .obj [(st "panelsJSON", .str (st "[\x7b\"id\": \"v1\"\x7d, \x7b\x7d]"))], st ".kibana"⟩]
        [⟨st "v1", st "visualization", .obj [], st ".kibana"⟩] [] (st "d1") = .ok (some []) :=
  get_dashboard_full_missing_panel_id (st ".kibana") _ _ _ (st "d1") _ _ _
    [.obj [(st "id", .str (st "v1"))], .obj []] rfl rfl rfl rfl
    (by
      intro p hp
      rcases List.mem_cons.mp hp with h | h
      · subst h; exact Or.inl ⟨.str (st "v1"), rfl⟩
      · rcases List.mem_cons.mp h with h2 | h2
        · subst h2; exact Or.inr rfl
        · exact absurd h2 (List.not_mem_nil p))
    ⟨.obj [], by simp, rfl⟩
    (Or.inl (by simp [get_objects, dinsert]))

/-- C10 (confirmed): when the dashboard is found but its `_source` lacks a
`panelsJSON` member, or `panelsJSON` does not parse as JSON, the error
(`KeyError` / `ValueError`) escapes `get_dashboard_full` uncaught — the
`except KeyError` that produces the empty-dict result guards only the
`panel['id']` subscripts, while this access and parse sit outside it. -/
theorem get_dashboard_full_uncaught (storeIndex : Str) (dHits vHits sHits : List Hit)
    (X : Str) (dval src : Json)
    (hfound : lookupJ X (get_objects storeIndex dHits) = some dval)
    (hsrc : pyGet dval (st "_source") = .ok src) :
    (∀ e, pyGet src (st "panelsJSON") = .error e →
      get_dashboard_full storeIndex dHits vHits sHits X = .error e) ∧
    (∀ ps, pyGet src (st "panelsJSON") = .ok (.str ps) → jloads ps = none →
      get_dashboard_full storeIndex dHits vHits sHits X = .error .valueError) := by
  constructor
  · intro e he
    unfold get_dashboard_full
    rw [gdfLoop_eq_lookup]
    simp only [hfound, processDash, hsrc, he]
  · intro ps hps hloads
    unfold get_dashboard_full
    rw [gdfLoop_eq_lookup]
    simp only [hfound, processDash, hsrc, hps, jloadsPy, hloads]

/-- C10 (witness): the theorem applied to a backend whose dashboard has an
unparseable `panelsJSON`. -/
theorem get_dashboard_full_uncaught_witness :
    get_dashboard_full (st ".kibana")
        [⟨st "d1", st "dashboard", .obj [(st "panelsJSON", .str (st "not json"))], st ".kibana"⟩]
        [] [] (st "d1") = .error .valueError :=
  (get_dashboard_full_uncaught (st ".kibana")
    [⟨st "d1", st "dashboard", .obj [(st "panelsJSON", .str (st "not json"))], st ".kibana"⟩]
    [] [] (st "d1")
    (mkDoc (st ".kibana")
      ⟨st "d1", st "dashboard", .obj [(st "panelsJSON", .str (st "not json"))], st ".kibana"⟩)
    (.obj [(st "panelsJSON", .str (st "not json"))]) rfl rfl).2 (st "not json") rfl rfl

/-- C9 (confirmed): `connect_es` is idempotent, and when a client handle
already exists the call leaves the whole manager state unchanged. -/
theorem connect_es_idempotent (m : KibanaManager) :
    connect_es (connect_es m) = connect_es m ∧
    ∀ c, m.es = some c → connect_es m = m := by
  constructor
  · cases h : m.es with
    | some c => simp [connect_es, h]
    | none => simp [connect_es, h]
  · intro c hc
    simp [connect_es, hc]

/-- C9 (witness): the theorem applied to a manager with an established
connection handle. -/
theorem connect_es_idempotent_witness :
    connect_es
        { hostIp := st "127.0.0.1", hostPort := 9200, index := st ".kibana",
          es := some ⟨st "127.0.0.1", 9200⟩, max_hits := 9999 } =
      { hostIp := st "127.0.0.1", hostPort := 9200, index := st ".kibana",
        es := some ⟨st "127.0.0.1", 9200⟩, max_hits := 9999 } :=
  (connect_es_idempotent _).2 ⟨st "127.0.0.1", 9200⟩ rfl

/-- C4 (amended): `put_object` checks `_index`, `_id`, `_type`, `_source`
in that order; a field that is present but `None` or the empty string
raises the exception naming that field, before any client request is
issued, and a missing first field surfaces its `KeyError`, also before
any request; but a field that is empty in any other sense — in particular
an empty `source` OBJECT — passes the `is None or == ""` test, so the
document is written. -/
theorem put_object_spec (obj : Json) :
    (∀ e, pyGet obj (st "_index") = .error e → put_object obj = ([], .error e)) ∧
    (∀ ix, pyGet obj (st "_index") = .ok ix → isNoneOrEmpty ix = true →
      put_object obj = ([], .error (.exception (st "Invalid Object, no index")))) ∧
    (∀ ix idv, pyGet obj (st "_index") = .ok ix → isNoneOrEmpty ix = false →
      pyGet obj (st "_id") = .ok idv → isNoneOrEmpty idv = true →
      put_object obj = ([], .error (.exception (st "Invalid Object, no _id")))) ∧
    (∀ ix idv ty, pyGet obj (st "_index") = .ok ix → isNoneOrEmpty ix = false →
      pyGet obj (st "_id") = .ok idv → isNoneOrEmpty idv = false →
      pyGet obj (st "_type") = .ok ty → isNoneOrEmpty ty = true →
      put_object obj = ([], .error (.exception (st "Invalid Object, no _type")))) ∧
    (∀ ix idv ty src, pyGet obj (st "_index") = .ok ix → isNoneOrEmpty ix = false →
      pyGet obj (st "_id") = .ok idv → isNoneOrEmpty idv = false →
      pyGet obj (st "_type") = .ok ty → isNoneOrEmpty ty = false →
      pyGet obj (st "_source") = .ok src → isNoneOrEmpty src = true →
      put_object obj = ([], .error (.exception (st "Invalid Object, no _source")))) ∧
    (∀ ix idv ty src, pyGet obj (st "_index") = .ok ix → isNoneOrEmpty ix = false →
      pyGet obj (st "_id") = .ok idv → isNoneOrEmpty idv = false →
      pyGet obj (st "_type") = .ok ty → isNoneOrEmpty ty = false →
      pyGet obj (st "_source") = .ok src → isNoneOrEmpty src = false →
      put_object obj = ([.createIdx ix, .indexDoc ix idv ty src], .ok ())) := by
  refine ⟨?_, ?_, ?_, ?_, ?_, ?_⟩ <;> intros <;> simp_all [put_object]

/-- C4 (counterexample): a document whose `_source` is the empty object
`{}` — empty in the claim's sense — passes validation and is written to
the backend, because `{} == ""` is false in Python; no
`InvalidDocumentError` is raised. -/
theorem put_object_c4_counterexample :
    put_object (.obj [(st "_index", .str (st ".kibana")), (st "_id", .str (st "c1")),
        (st "_type", .str (st "config")), (st "_source", .obj [])]) =
      ([.createIdx (.str (st ".kibana")),
        .indexDoc (.str (st ".kibana")) (.str (st "c1")) (.str (st "config")) (.obj [])],
       .ok ()) := rfl

/-- C4 (witness): the amended theorem applied to a document with an empty
`_index` string. -/
theorem put_object_spec_witness :
    put_object (.obj [(st "_index", .str []), (st "_id", .str (st "a")),
        (st "_type", .str (st "t")), (st "_source", .obj [(st "x", .null)])]) =
      ([], .error (.exception (st "Invalid Object, no index"))) :=
  (put_object_spec _).2.1 (.str []) rfl rfl

/-- C5 (confirmed): `del_object` validates `_index`, `_id`, `_type` with
the same kind of exception as `put_object` (a plain `Exception`, message
`Invalid Object`), does not validate `_source`, issues no client request
when validation fails, and when the document is valid it issues exactly
the delete request and returns the client's outcome unchanged — so a
not-found error from the client propagates to the caller. -/
theorem del_object_spec (esDel : Json → Json → Json → Except PyErr Unit) (obj : Json) :
    (∀ ix, pyGet obj (st "_index") = .ok ix → isNoneOrEmpty ix = true →
      del_object esDel obj = ([], .error (.exception (st "Invalid Object")))) ∧
    (∀ ix idv, pyGet obj (st "_index") = .ok ix → isNoneOrEmpty ix = false →
      pyGet obj (st "_id") = .ok idv → isNoneOrEmpty idv = true →
      del_object esDel obj = ([], .error (.exception (st "Invalid Object")))) ∧
    (∀ ix idv ty, pyGet obj (st "_index") = .ok ix → isNoneOrEmpty ix = false →
      pyGet obj (st "_id") = .ok idv → isNoneOrEmpty idv = false →
      pyGet obj (st "_type") = .ok ty → isNoneOrEmpty ty = true →
      del_object esDel obj = ([], .error (.exception (st "Invalid Object")))) ∧
    (∀ ix idv ty, pyGet obj (st "_index") = .ok ix → isNoneOrEmpty ix = false →
      pyGet obj (st "_id") = .ok idv → isNoneOrEmpty idv = false →
      pyGet obj (st "_type") = .ok ty → isNoneOrEmpty ty = false →
      del_object esDel obj = ([.deleteDoc ix idv ty], esDel ix idv ty)) ∧
    (∀ ix idv ty e, pyGet obj (st "_index") = .ok ix → isNoneOrEmpty ix = false →
      pyGet obj (st "_id") = .ok idv → isNoneOrEmpty idv = false →
      pyGet obj (st "_type") = .ok ty → isNoneOrEmpty ty = false →
      esDel ix idv ty = .error e →
      del_object esDel obj = ([.deleteDoc ix idv ty], .error e)) := by
  refine ⟨?_, ?_, ?_, ?_, ?_⟩ <;> intros <;> simp_all [del_object]

/-- C5 (witness): the theorem applied to a document with an empty `_id`
(validation fails, no client request) — using a client stub whose delete
always reports not-found, which the last conjunct would propagate. -/
theorem del_object_spec_witness :
    del_object (fun _ _ _ => .error (.exception (st "NotFoundError")))
        (.obj [(st "_index", .str (st ".kibana")), (st "_id", .str []),
          (st "_type", .str (st "dashboard")), (st "_source", .obj [])]) =
      ([], .error (.exception (st "Invalid Object"))) :=
  (del_object_spec _ _).2.1 (.str (st ".kibana")) (.str []) rfl rfl rfl rfl

/-- C8 (confirmed): every entry of the DocumentSet built by `get_objects`
is keyed by its value's `_id`; every value's `_index` is the manager's
configured index (regardless of the hit's own `_index`); `_type`, `_id`
and `_source` are copied from the hit the entry was built from; and when
every hit of the response carries the requested type — as the type-filter
query guarantees of the backend — every value carries that type. -/
theorem get_objects_spec (storeIndex : Str) (hits : List Hit) (t : Str) :
    (∀ kv ∈ get_objects storeIndex hits,
      pyGet kv.2 (st "_id") = .ok (.str kv.1) ∧
      pyGet kv.2 (st "_index") = .ok (.str storeIndex) ∧
      ∃ ht ∈ hits, ht.hid = kv.1 ∧ pyGet kv.2 (st "_type") = .ok (.str ht.htype) ∧
        pyGet kv.2 (st "_source") = .ok ht.hsource) ∧
    ((∀ ht ∈ hits, ht.htype = t) →
      ∀ kv ∈ get_objects storeIndex hits, pyGet kv.2 (st "_type") = .ok (.str t)) := by
  constructor
  · intro kv hkv
    obtain ⟨ht, hmem, hkv'⟩ := get_objects_mem storeIndex hits kv hkv
    subst hkv'
    exact ⟨pyGet_mkDoc_id _ _, pyGet_mkDoc_index _ _, ht, hmem, rfl,
      pyGet_mkDoc_type _ _, pyGet_mkDoc_source _ _⟩
  · intro hall kv hkv
    obtain ⟨ht, hmem, hkv'⟩ := get_objects_mem storeIndex hits kv hkv
    subst hkv'
    rw [pyGet_mkDoc_type, hall ht hmem]

/-- C8 (witness): the theorem applied to a concrete dashboard search
response (note the hit's own index `other` is overridden by the store's
`.kibana`). -/
theorem get_objects_spec_witness :
    pyGet (mkDoc (st ".kibana") ⟨st "d1", st "dashboard", .obj [], st "other"⟩)
        (st "_type") = .ok (.str (st "dashboard")) :=
  (get_objects_spec (st ".kibana") [⟨st "d1", st "dashboard", .obj [], st "other"⟩]
      (st "dashboard")).2
    (by
      intro ht h
      rcases List.mem_cons.mp h with h' | h'
      · subst h'; rfl
      · exact absurd h' (List.not_mem_nil ht))
    (st "d1", mkDoc (st ".kibana") ⟨st "d1", st "dashboard", .obj [], st "other"⟩)
    (List.mem_cons_self _ _)

theorem scanMatches_ok_lookup_none (panel : Json) (pid : Str)
    (hok : pyGet panel (st "id") = .ok (.str pid)) (entries : List (Str × Json))
    (h : lookupJ pid entries = none) (o : List (Str × Json)) :
    scanMatches panel entries o = .cont o := by
  apply scanMatches_ok_nomatch panel _ hok
  intro kv hkv
  have hne := (lookupJ_none_iff pid entries).mp h kv hkv
  simp [isStrEq]
  exact fun hc => hne hc.symm

/-- C3 (confirmed): when dashboard `X` is present, its `panelsJSON` parses
to exactly two panels referencing `V1` and `S1`, `V1` is among the fetched
visualizations, `S1` among the fetched searches (and neither id appears in
the other collection, nor collides with `X`), then `get_dashboard_full`
returns the DocumentSet of exactly the dashboard, the visualization and
the search, each keyed by its id. -/
theorem get_dashboard_full_closure (storeIndex : Str) (dHits vHits sHits : List Hit)
    (X V1 S1 : Str) (dval src vval sval : Json) (ps : Str) (p1 p2 : Json)
    (hfound : lookupJ X (get_objects storeIndex dHits) = some dval)
    (hsrc : pyGet dval (st "_source") = .ok src)
    (hpj : pyGet src (st "panelsJSON") = .ok (.str ps))
    (hparse : jloads ps = some (.arr [p1, p2]))
    (hp1 : pyGet p1 (st "id") = .ok (.str V1))
    (hp2 : pyGet p2 (st "id") = .ok (.str S1))
    (hv : lookupJ V1 (get_objects storeIndex vHits) = some vval)
    (hs : lookupJ S1 (get_objects storeIndex sHits) = some sval)
    (hvs : lookupJ S1 (get_objects storeIndex vHits) = none)
    (hsv : lookupJ V1 (get_objects storeIndex sHits) = none)
    (hXV : X ≠ V1) (hXS : X ≠ S1) (hVS : V1 ≠ S1) :
    get_dashboard_full storeIndex dHits vHits sHits X =
      .ok (some [(X, dval), (V1, vval), (S1, sval)]) := by
  unfold get_dashboard_full
  rw [gdfLoop_eq_lookup]
  simp only [hfound, processDash, hsrc, hpj, jloadsPy, hparse, pyIter]
  have hnd_v := nodupKeys_get_objects storeIndex vHits
  have hnd_s := nodupKeys_get_objects storeIndex sHits
  have h1 : scanMatches p1 (get_objects storeIndex vHits) [(X, dval)] =
      .cont [(X, dval), (V1, vval)] := by
    rw [scanMatches_ok_found p1 V1 vval hp1 _ hnd_v hv]
    simp [dinsert, hXV]
  have h2 : scanMatches p1 (get_objects storeIndex sHits) [(X, dval), (V1, vval)] =
      .cont [(X, dval), (V1, vval)] :=
    scanMatches_ok_lookup_none p1 V1 hp1 _ hsv _
  have h3 : scanMatches p2 (get_objects storeIndex vHits) [(X, dval), (V1, vval)] =
      .cont [(X, dval), (V1, vval)] :=
    scanMatches_ok_lookup_none p2 S1 hp2 _ hvs _
  have h4 : scanMatches p2 (get_objects storeIndex sHits) [(X, dval), (V1, vval)] =
      .cont [(X, dval), (V1, vval), (S1, sval)] := by
    rw [scanMatches_ok_found p2 S1 sval hp2 _ hnd_s hs]
    simp [dinsert, hXS, hVS]
  simp only [panelLoop, h1, h2, h3, h4]

/-- C3 (witness): the theorem applied to a concrete backend: dashboard
`d1` whose panels reference visualization `v1` and saved search `s1`. -/
theorem get_dashboard_full_closure_witness :
    get_dashboard_full (st ".kibana")
        [⟨st "d1", st "dashboard",
          .obj [(st "panelsJSON", .str (st "[\x7b\"id\": \"v1\"\x7d, \x7b\"id\": \"s1\"\x7d]"))],
          st ".kibana"⟩]
        [⟨st "v1", st "visualization", .obj [(st "vis", .null)], st ".kibana"⟩]
        [⟨st "s1", st "search", .obj [(st "query", .null)], st ".kibana"⟩] (st "d1") =
      .ok (some
        [(st "d1",
          mkDoc (st ".kibana")
            ⟨st "d1", st "dashboard",
              .obj [(st "panelsJSON", .str (st "[\x7b\"id\": \"v1\"\x7d, \x7b\"id\": \"s1\"\x7d]"))],
              st ".kibana"⟩),
         (st "v1",
          mkDoc (st ".kibana") ⟨st "v1", st "visualization", .obj [(st "vis", .null)], st ".kibana"⟩),
         (st "s1",
          mkDoc (st ".kibana") ⟨st "s1", st "search", .obj [(st "query", .null)], st ".kibana"⟩)]) :=
  get_dashboard_full_closure (st ".kibana") _ _ _ (st "d1") (st "v1") (st "s1")
    _ (.obj [(st "panelsJSON", .str (st "[\x7b\"id\": \"v1\"\x7d, \x7b\"id\": \"s1\"\x7d]"))])
    _ _ (st "[\x7b\"id\": \"v1\"\x7d, \x7b\"id\": \"s1\"\x7d]")
    (.obj [(st "id", .str (st "v1"))]) (.obj [(st "id", .str (st "s1"))])
    rfl rfl rfl rfl rfl rfl rfl rfl rfl rfl
    (by decide) (by decide) (by decide)

/-! Character-level lemmas for the serialization round trip. -/

theorem char_toNat_ofNat (n : Nat) (h : n.isValidChar) : (Char.ofNat n).toNat = n := by
  unfold Char.ofNat
  rw [dif_pos h]
  unfold Char.ofNatAux Char.toNat
  simp [UInt32.toNat, BitVec.toNat_ofNatLt]

theorem char_valid_ranges (c : Char) :
    c.toNat < 0xd800 ∨ (0xe000 ≤ c.toNat ∧ c.toNat < 0x110000) := by
  have h := c.valid
  unfold UInt32.isValidChar at h
  unfold Nat.isValidChar at h
  unfold Char.toNat
  rcases h with h | h
  · exact Or.inl h
  · exact Or.inr ⟨by omega, h.2⟩

theorem char_ne_of_toNat_ne {c d : Char} (h : c.toNat ≠ d.toNat) : c ≠ d :=
  fun he => h (congrArg Char.toNat he)

theorem hexDig_round : ∀ d, d < 16 → fromHexDig (toHexDig d) = some d := by decide

theorem hexVal_toHex4 (n : Nat) (h : n < 0x10000) :
    hexVal (toHexDig (n / 4096 % 16)) (toHexDig (n / 256 % 16))
      (toHexDig (n / 16 % 16)) (toHexDig (n % 16)) = some n := by
  unfold hexVal
  rw [hexDig_round _ (Nat.mod_lt _ (by omega)), hexDig_round _ (Nat.mod_lt _ (by omega)),
    hexDig_round _ (Nat.mod_lt _ (by omega)), hexDig_round _ (Nat.mod_lt _ (by omega))]
  show some _ = some _
  rw [Option.some.injEq]
  omega

/-! Digit-run lemmas: Python's `str(int)` feeds the parser back the same
integer. -/

theorem digitChar_toNat : ∀ d, d < 10 → (digitChar d).toNat = 48 + d := by decide

theorem isDig_digitChar : ∀ d, d < 10 → isDig (digitChar d) = true := by decide

theorem natToDigs_digits (n : Nat) : ∀ c ∈ natToDigs n, isDig c = true := by
  induction n using Nat.strong_induction_on with
  | _ n ih =>
    rw [natToDigs]
    split
    · intro c hc
      simp at hc
      subst hc
      exact isDig_digitChar n (by omega)
    · intro c hc
      rw [List.mem_append] at hc
      rcases hc with hc | hc
      · exact ih (n / 10) (Nat.div_lt_self (by omega) (by omega)) c hc
      · simp at hc
        subst hc
        exact isDig_digitChar _ (Nat.mod_lt _ (by omega))

theorem natToDigs_cons (n : Nat) : ∃ c t, natToDigs n = c :: t := by
  induction n using Nat.strong_induction_on with
  | _ n ih =>
    rw [natToDigs]
    split
    · exact ⟨digitChar n, [], rfl⟩
    · obtain ⟨c, t, hct⟩ := ih (n / 10) (Nat.div_lt_self (by omega) (by omega))
      exact ⟨c, t ++ [digitChar (n % 10)], by rw [hct]; rfl⟩

theorem digsVal_append (ds : Str) (hds : ∀ c ∈ ds, isDig c = true) (rest : Str)
    (h : headNotDig rest) : ∀ acc,
    digsVal acc (ds ++ rest) =
      (List.foldl (fun a c => a * 10 + (c.toNat - 48)) acc ds, rest) := by
  induction ds with
  | nil =>
    intro acc
    cases rest with
    | nil => rfl
    | cons c r =>
      have hc : isDig c = false := h
      simp [digsVal, hc]
  | cons c ds ih =>
    intro acc
    have hc : isDig c = true := hds c (by simp)
    simp only [List.cons_append, digsVal, hc, if_pos]
    exact ih (fun d hd => hds d (by simp [hd])) _

theorem foldl_natToDigs (n : Nat) : ∀ acc,
    List.foldl (fun a c => a * 10 + (c.toNat - 48)) acc (natToDigs n) =
      acc * 10 ^ (natToDigs n).length + n := by
  induction n using Nat.strong_induction_on with
  | _ n ih =>
    intro acc
    rw [natToDigs]
    split
    · rename_i h
      simp [List.foldl, digitChar_toNat n h]
    · rename_i h
      rw [List.foldl_append, List.length_append, ih (n / 10) (Nat.div_lt_self (by omega) (by omega))]
      simp only [List.foldl, List.length_cons, List.length_nil]
      rw [digitChar_toNat _ (Nat.mod_lt _ (by omega))]
      have harith : 48 + n % 10 - 48 = n % 10 := by omega
      rw [harith]
      have hlen : (natToDigs (n / 10)).length + (0 + 1) = (natToDigs (n / 10)).length + 1 := by omega
      rw [hlen, pow_succ]
      have := Nat.div_add_mod n 10
      set A := 10 ^ (natToDigs (n / 10)).length with hA
      calc (acc * A + n / 10) * 10 + n % 10
      _ = acc * (A * 10) + (10 * (n / 10) + n % 10) := by ring
      _ = acc * (A * 10) + n := by rw [Nat.div_add_mod]

theorem parseNatNum_natToDigs (n : Nat) (rest : Str) (h : numOkHead rest) :
    parseNatNum (natToDigs n ++ rest) = some (n, rest) := by
  obtain ⟨d, ds, hds⟩ := natToDigs_cons n
  have hd : isDig d = true := natToDigs_digits n d (by rw [hds]; simp)
  have hdigs : ∀ c ∈ ds, isDig c = true := fun c hc => natToDigs_digits n c (by rw [hds]; simp [hc])
  have hnd : headNotDig rest := by
    cases rest with
    | nil => trivial
    | cons c r => exact h.1
  rw [hds]
  simp only [List.cons_append, parseNatNum, hd, if_pos]
  rw [digsVal_append ds hdigs rest hnd]
  have hfold : List.foldl (fun a c => a * 10 + (c.toNat - 48)) (d.toNat - 48) ds = n := by
    have h0 := foldl_natToDigs n 0
    rw [hds] at h0
    simp only [List.foldl] at h0
    simpa using h0
  rw [hfold]
  cases rest with
  | nil => rfl
  | cons c r =>
    obtain ⟨_, hdot, he, hE⟩ := h
    simp [hdot, he, hE]

theorem parseNum_intToStr (n : Int) (rest : Str) (h : numOkHead rest) :
    parseNum (intToStr n ++ rest) = some (n, rest) := by
  unfold intToStr
  split
  · rename_i hneg
    simp only [List.cons_append, parseNum, if_pos]
    rw [parseNatNum_natToDigs _ _ h]
    show some (-(n.natAbs : Int), rest) = some (n, rest)
    have : -((n.natAbs : Nat) : Int) = n := by omega
    rw [this]
  · rename_i hpos
    obtain ⟨d, ds, hds⟩ := natToDigs_cons n.toNat
    have hd : isDig d = true := natToDigs_digits n.toNat d (by rw [hds]; simp)
    have hdm : d ≠ '-' := by
      apply char_ne_of_toNat_ne
      simp [isDig] at hd
      have h45 : ('-').toNat = 45 := rfl
      intro hc
      rw [hc, h45] at hd
      omega
    rw [hds]
    simp only [List.cons_append, parseNum, hdm, if_neg, if_false]
    rw [← List.cons_append, ← hds, parseNatNum_natToDigs _ _ h]
    show some ((n.toNat : Int), rest) = some (n, rest)
    have : ((n.toNat : Nat) : Int) = n := by omega
    rw [this]

/-! String-escape round trip: decoding what the encoder emitted restores
the original characters.  First, one small step lemma per parser branch. -/

theorem psbQuote (fu : Nat) (r : Str) :
    parseStrBody (fu + 1) ('"' :: r) = some ([], r) := rfl

theorem psbEscQuote (fu : Nat) (r : Str) :
    parseStrBody (fu + 1) ('\\' :: '"' :: r) = mapCons '"' (parseStrBody fu r) := rfl

theorem psbEscBack (fu : Nat) (r : Str) :
    parseStrBody (fu + 1) ('\\' :: '\\' :: r) = mapCons '\\' (parseStrBody fu r) := rfl

theorem psbEscB (fu : Nat) (r : Str) :
    parseStrBody (fu + 1) ('\\' :: 'b' :: r) = mapCons (Char.ofNat 8) (parseStrBody fu r) := rfl

theorem psbEscF (fu : Nat) (r : Str) :
    parseStrBody (fu + 1) ('\\' :: 'f' :: r) = mapCons (Char.ofNat 12) (parseStrBody fu r) := rfl

theorem psbEscN (fu : Nat) (r : Str) :
    parseStrBody (fu + 1) ('\\' :: 'n' :: r) = mapCons '\n' (parseStrBody fu r) := rfl

theorem psbEscR (fu : Nat) (r : Str) :
    parseStrBody (fu + 1) ('\\' :: 'r' :: r) = mapCons (Char.ofNat 13) (parseStrBody fu r) := rfl

theorem psbEscT (fu : Nat) (r : Str) :
    parseStrBody (fu + 1) ('\\' :: 't' :: r) = mapCons '\t' (parseStrBody fu r) := rfl

theorem psbEscU_bmp (fu : Nat) (a b c' d : Char) (r1 : Str) (n : Nat)
    (hv : hexVal a b c' d = some n) (hn : n < 0xd800 ∨ 0xe000 ≤ n) :
    parseStrBody (fu + 1) ('\\' :: 'u' :: a :: b :: c' :: d :: r1) =
      mapCons (Char.ofNat n) (parseStrBody fu r1) := by
  show (match hexVal a b c' d with
       | none => none
       | some n =>
         if n < 0xd800 ∨ 0xe000 ≤ n then mapCons (Char.ofNat n) (parseStrBody fu r1)
         else if n < 0xdc00 then
           match r1 with
           | '\\' :: 'u' :: a2 :: b2 :: c2 :: d2 :: r2 =>
             match hexVal a2 b2 c2 d2 with
             | none => none
             | some m =>
               if 0xdc00 ≤ m ∧ m < 0xe000 then
                 mapCons (Char.ofNat (combineSurr n m)) (parseStrBody fu r2)
               else none
           | _ => none
         else none) = mapCons (Char.ofNat n) (parseStrBody fu r1)
  rw [hv]
  simp only [if_pos hn]

theorem psbEscU_surr (fu : Nat) (a b c' d a2 b2 c2 d2 : Char) (r2 : Str) (n m : Nat)
    (hv : hexVal a b c' d = some n) (hn1 : ¬(n < 0xd800 ∨ 0xe000 ≤ n)) (hn2 : n < 0xdc00)
    (hv2 : hexVal a2 b2 c2 d2 = some m) (hm : 0xdc00 ≤ m ∧ m < 0xe000) :
    parseStrBody (fu + 1)
        ('\\' :: 'u' :: a :: b :: c' :: d :: '\\' :: 'u' :: a2 :: b2 :: c2 :: d2 :: r2) =
      mapCons (Char.ofNat (combineSurr n m)) (parseStrBody fu r2) := by
  show (match hexVal a b c' d with
       | none => none
       | some n =>
         if n < 0xd800 ∨ 0xe000 ≤ n then
           mapCons (Char.ofNat n)
             (parseStrBody fu ('\\' :: 'u' :: a2 :: b2 :: c2 :: d2 :: r2))
         else if n < 0xdc00 then
           match ('\\' :: 'u' :: a2 :: b2 :: c2 :: d2 :: r2 : Str) with
           | '\\' :: 'u' :: a2 :: b2 :: c2 :: d2 :: r2 =>
             match hexVal a2 b2 c2 d2 with
             | none => none
             | some m =>
               if 0xdc00 ≤ m ∧ m < 0xe000 then
                 mapCons (Char.ofNat (combineSurr n m)) (parseStrBody fu r2)
               else none
           | _ => none
         else none) = mapCons (Char.ofNat (combineSurr n m)) (parseStrBody fu r2)
  rw [hv]
  simp only [if_neg hn1, if_pos hn2, hv2, if_pos hm]

theorem psbPlain (fu : Nat) (c : Char) (r : Str) (h1 : c ≠ '"') (h2 : c ≠ '\\')
    (h3 : ¬(c.toNat < 0x20)) :
    parseStrBody (fu + 1) (c :: r) = mapCons c (parseStrBody fu r) := by
  show (if c = '"' then some ([], r)
    else if c = '\\' then
      match r with
      | [] => none
      | e :: r0 =>
        if e = '"' then mapCons '"' (parseStrBody fu r0)
        else if e = '\\' then mapCons '\\' (parseStrBody fu r0)
        else if e = '/' then mapCons '/' (parseStrBody fu r0)
        else if e = 'b' then mapCons (Char.ofNat 8) (parseStrBody fu r0)
        else if e = 'f' then mapCons (Char.ofNat 12) (parseStrBody fu r0)
        else if e = 'n' then mapCons '\n' (parseStrBody fu r0)
        else if e = 'r' then mapCons (Char.ofNat 13) (parseStrBody fu r0)
        else if e = 't' then mapCons '\t' (parseStrBody fu r0)
        else if e = 'u' then
          match r0 with
          | a :: b :: c' :: d :: r1 =>
            match hexVal a b c' d with
            | none => none
            | some n =>
              if n < 0xd800 ∨ 0xe000 ≤ n then mapCons (Char.ofNat n) (parseStrBody fu r1)
              else if n < 0xdc00 then
                match r1 with
                | '\\' :: 'u' :: a2 :: b2 :: c2 :: d2 :: r2 =>
                  match hexVal a2 b2 c2 d2 with
                  | none => none
                  | some m =>
                    if 0xdc00 ≤ m ∧ m < 0xe000 then
                      mapCons (Char.ofNat (combineSurr n m)) (parseStrBody fu r2)
                    else none
                | _ => none
              else none
          | _ => none
        else none
    else if c.toNat < 0x20 then none
    else mapCons c (parseStrBody fu r)) = mapCons c (parseStrBody fu r)
  rw [if_neg h1, if_neg h2, if_neg h3]

theorem parseStrBody_escStr (s : Str) :
    ∀ fu rest, s.length < fu →
      parseStrBody fu (escStr s ++ '"' :: rest) = some (s, rest) := by
  induction s with
  | nil =>
    intro fu rest hfu
    obtain ⟨f, rfl⟩ : ∃ f, fu = f + 1 := ⟨fu - 1, by omega⟩
    rw [show escStr [] = [] from rfl, List.nil_append, psbQuote]
  | cons c cs ih =>
    intro fu rest hfu
    obtain ⟨f, rfl⟩ : ∃ f, fu = f + 1 := ⟨fu - 1, by omega⟩
    have hf : cs.length < f := by
      have : (c :: cs).length = cs.length + 1 := rfl
      omega
    rw [escStr, List.append_assoc]
    by_cases h1 : c = '"'
    · subst h1
      rw [show escC '"' = ['\\', '"'] from rfl]
      simp only [List.cons_append, List.nil_append]
      rw [psbEscQuote, ih f rest hf]
      rfl
    by_cases h2 : c = '\\'
    · subst h2
      rw [show escC '\\' = ['\\', '\\'] from rfl]
      simp only [List.cons_append, List.nil_append]
      rw [psbEscBack, ih f rest hf]
      rfl
    by_cases h3 : c = Char.ofNat 8
    · subst h3
      rw [show escC (Char.ofNat 8) = ['\\', 'b'] from rfl]
      simp only [List.cons_append, List.nil_append]
      rw [psbEscB, ih f rest hf]
      rfl
    by_cases h4 : c = '\t'
    · subst h4
      rw [show escC '\t' = ['\\', 't'] from rfl]
      simp only [List.cons_append, List.nil_append]
      rw [psbEscT, ih f rest hf]
      rfl
    by_cases h5 : c = '\n'
    · subst h5
      rw [show escC '\n' = ['\\', 'n'] from rfl]
      simp only [List.cons_append, List.nil_append]
      rw [psbEscN, ih f rest hf]
      rfl
    by_cases h6 : c = Char.ofNat 12
    · subst h6
      rw [show escC (Char.ofNat 12) = ['\\', 'f'] from rfl]
      simp only [List.cons_append, List.nil_append]
      rw [psbEscF, ih f rest hf]
      rfl
    by_cases h7 : c = Char.ofNat 13
    · subst h7
      rw [show escC (Char.ofNat 13) = ['\\', 'r'] from rfl]
      simp only [List.cons_append, List.nil_append]
      rw [psbEscR, ih f rest hf]
      rfl
    by_cases h8 : c.toNat < 0x20
    · have hesc : escC c = uEsc c.toNat := by
        unfold escC
        rw [if_neg h1, if_neg h2, if_neg h3, if_neg h4, if_neg h5, if_neg h6, if_neg h7,
          if_pos h8]
      rw [hesc]
      simp only [uEsc, toHex4, List.cons_append, List.nil_append]
      rw [psbEscU_bmp f _ _ _ _ _ c.toNat (hexVal_toHex4 c.toNat (by omega)) (Or.inl (by omega))]
      rw [Char.ofNat_toNat, ih f rest hf]
      rfl
    by_cases h9 : c.toNat ≤ 0x7e
    · have hesc : escC c = [c] := by
        unfold escC
        rw [if_neg h1, if_neg h2, if_neg h3, if_neg h4, if_neg h5, if_neg h6, if_neg h7,
          if_neg h8, if_pos h9]
      rw [hesc]
      simp only [List.cons_append, List.nil_append]
      rw [psbPlain f c _ h1 h2 h8, ih f rest hf]
      rfl
    by_cases h10 : c.toNat < 0x10000
    · have hdisj : c.toNat < 0xd800 ∨ 0xe000 ≤ c.toNat := by
        rcases char_valid_ranges c with h | h
        · exact Or.inl h
        · exact Or.inr h.1
      have hesc : escC c = uEsc c.toNat := by
        unfold escC
        rw [if_neg h1, if_neg h2, if_neg h3, if_neg h4, if_neg h5, if_neg h6, if_neg h7,
          if_neg h8, if_neg h9, if_pos h10]
      rw [hesc]
      simp only [uEsc, toHex4, List.cons_append, List.nil_append]
      rw [psbEscU_bmp f _ _ _ _ _ c.toNat (hexVal_toHex4 c.toNat (by omega)) hdisj]
      rw [Char.ofNat_toNat, ih f rest hf]
      rfl
    · have hrange : 0x10000 ≤ c.toNat ∧ c.toNat < 0x110000 := by
        constructor
        · omega
        · rcases char_valid_ranges c with h | h
          · omega
          · exact h.2
      have hhi1 : 0xd800 + (c.toNat - 0x10000) / 0x400 < 0xdc00 := by omega
      have hhi2 : ¬(0xd800 + (c.toNat - 0x10000) / 0x400 < 0xd800 ∨
          0xe000 ≤ 0xd800 + (c.toNat - 0x10000) / 0x400) := by omega
      have hlo : 0xdc00 ≤ 0xdc00 + (c.toNat - 0x10000) % 0x400 ∧
          0xdc00 + (c.toNat - 0x10000) % 0x400 < 0xe000 := by
        constructor
        · omega
        · have := Nat.mod_lt (c.toNat - 0x10000) (show 0 < 0x400 by omega)
          omega
      have hesc : escC c = uEsc (0xd800 + (c.toNat - 0x10000) / 0x400) ++
          uEsc (0xdc00 + (c.toNat - 0x10000) % 0x400) := by
        unfold escC
        rw [if_neg h1, if_neg h2, if_neg h3, if_neg h4, if_neg h5, if_neg h6, if_neg h7,
          if_neg h8, if_neg h9, if_neg h10]
      rw [hesc]
      simp only [uEsc, toHex4, List.cons_append, List.nil_append, List.append_assoc]
      rw [psbEscU_surr f _ _ _ _ _ _ _ _ _
        (0xd800 + (c.toNat - 0x10000) / 0x400) (0xdc00 + (c.toNat - 0x10000) % 0x400)
        (hexVal_toHex4 _ (by omega)) hhi2 hhi1 (hexVal_toHex4 _ (by omega)) hlo]
      have hcomb : combineSurr (0xd800 + (c.toNat - 0x10000) / 0x400)
          (0xdc00 + (c.toNat - 0x10000) % 0x400) = c.toNat := by
        unfold combineSurr
        omega
      rw [hcomb, Char.ofNat_toNat, ih f rest hf]
      rfl

/-! Whitespace and head-character lemmas. -/

theorem char_eq_iff_toNat (c d : Char) : c = d ↔ c.toNat = d.toNat := by
  constructor
  · intro h; rw [h]
  · intro h
    apply Char.ext
    unfold Char.toNat at h
    exact UInt32.ext h

theorem isWs_iff_toNat (c : Char) :
    isWs c = true ↔ c.toNat = 32 ∨ c.toNat = 9 ∨ c.toNat = 10 ∨ c.toNat = 13 := by
  unfold isWs
  simp only [Bool.or_eq_true, decide_eq_true_eq]
  rw [char_eq_iff_toNat c ' ', char_eq_iff_toNat c '\t', char_eq_iff_toNat c '\n',
    char_eq_iff_toNat c '\r']
  have hsp : (' ' : Char).toNat = 32 := rfl
  have hta : ('\t' : Char).toNat = 9 := rfl
  have hnl : ('\n' : Char).toNat = 10 := rfl
  have hcr : ('\r' : Char).toNat = 13 := rfl
  rw [hsp, hta, hnl, hcr]
  tauto

theorem isDig_iff_toNat (c : Char) :
    isDig c = true ↔ 48 ≤ c.toNat ∧ c.toNat ≤ 57 := by
  unfold isDig
  simp

theorem isWs_false_of_digit (c : Char) (h : isDig c = true) : isWs c = false := by
  rw [isDig_iff_toNat] at h
  rw [Bool.eq_false_iff]
  intro hw
  rw [isWs_iff_toNat] at hw
  omega

theorem skipWs_ws_append (l : Str) (h : ∀ c ∈ l, isWs c = true) (s : Str) :
    skipWs (l ++ s) = skipWs s := by
  induction l with
  | nil => rfl
  | cons c t ih =>
    have hc : isWs c = true := h c (by simp)
    simp only [List.cons_append, skipWs, hc, if_pos]
    exact ih (fun d hd => h d (by simp [hd]))

theorem skipWs_cons_not_ws (c : Char) (s : Str) (h : isWs c = false) :
    skipWs (c :: s) = c :: s := by
  simp [skipWs, h]

theorem nlInd_all_ws (lvl : Nat) : ∀ c ∈ nlInd lvl, isWs c = true := by
  intro c hc
  simp only [nlInd, List.mem_cons] at hc
  rcases hc with rfl | hc
  · rfl
  · rw [List.eq_of_mem_replicate hc]
    rfl

theorem skipWs_nlInd (lvl : Nat) (s : Str) : skipWs (nlInd lvl ++ s) = skipWs s :=
  skipWs_ws_append _ (nlInd_all_ws lvl) s

theorem escC_length_pos (c : Char) : 1 ≤ (escC c).length := by
  unfold escC
  by_cases h1 : c = '"'
  · rw [if_pos h1]; simp
  rw [if_neg h1]
  by_cases h2 : c = '\\'
  · rw [if_pos h2]; simp
  rw [if_neg h2]
  by_cases h3 : c = Char.ofNat 8
  · rw [if_pos h3]; simp
  rw [if_neg h3]
  by_cases h4 : c = '\t'
  · rw [if_pos h4]; simp
  rw [if_neg h4]
  by_cases h5 : c = '\n'
  · rw [if_pos h5]; simp
  rw [if_neg h5]
  by_cases h6 : c = Char.ofNat 12
  · rw [if_pos h6]; simp
  rw [if_neg h6]
  by_cases h7 : c = Char.ofNat 13
  · rw [if_pos h7]; simp
  rw [if_neg h7]
  by_cases h8 : c.toNat < 0x20
  · rw [if_pos h8]; simp [uEsc, toHex4]
  rw [if_neg h8]
  by_cases h9 : c.toNat ≤ 0x7e
  · rw [if_pos h9]; simp
  rw [if_neg h9]
  by_cases h10 : c.toNat < 0x10000
  · rw [if_pos h10]; simp [uEsc, toHex4]
  · rw [if_neg h10]; simp [uEsc, toHex4]

theorem escStr_length (s : Str) : s.length ≤ (escStr s).length := by
  induction s with
  | nil => simp [escStr]
  | cons c t ih =>
    rw [escStr, List.length_append]
    have := escC_length_pos c
    simp only [List.length_cons]
    omega

/-! A membership-based induction principle for the nested inductive
`Json`. -/

theorem Json.myInd (P : Json → Prop)
    (h0 : P .null) (h1 : ∀ b, P (.bool b)) (h2 : ∀ n, P (.num n)) (h3 : ∀ s, P (.str s))
    (h4 : ∀ xs, (∀ x ∈ xs, P x) → P (.arr xs))
    (h5 : ∀ kvs, (∀ kv ∈ kvs, P kv.2) → P (.obj kvs)) : ∀ j, P j := by
  have H : ∀ n j, sizeOf j ≤ n → P j := by
    intro n
    induction n with
    | zero =>
      intro j hj
      cases j <;> simp at hj
    | succ n ih =>
      intro j hj
      cases j with
      | null => exact h0
      | bool b => exact h1 b
      | num m => exact h2 m
      | str s => exact h3 s
      | arr xs =>
        apply h4
        intro x hx
        apply ih
        have hlt := List.sizeOf_lt_of_mem hx
        simp only [Json.arr.sizeOf_spec] at hj
        omega
      | obj kvs =>
        apply h5
        intro kv hkv
        apply ih
        have hlt := List.sizeOf_lt_of_mem hkv
        obtain ⟨k, v⟩ := kv
        simp only [Json.obj.sizeOf_spec] at hj
        simp only [Prod.mk.sizeOf_spec] at hlt
        simp only
        omega
  exact fun j => H (sizeOf j) j le_rfl

/-! The rendered text of a value starts with a significant character that
is not a closing bracket. -/

theorem renderPlain_head (lvl : Nat) (j : Json) :
    ∃ c t, renderPlain lvl j = c :: t ∧ isWs c = false ∧ c ≠ ']' ∧ c ≠ '\x7d' := by
  cases j with
  | null => exact ⟨'n', st "ull", by simp [renderPlain]; rfl, by decide, by decide, by decide⟩
  | bool b =>
    cases b with
    | true => exact ⟨'t', st "rue", by simp [renderPlain]; rfl, by decide, by decide, by decide⟩
    | false =>
      exact ⟨'f', st "alse", by simp [renderPlain]; rfl, by decide, by decide, by decide⟩
  | num n =>
    by_cases hn : n < 0
    · refine ⟨'-', natToDigs n.natAbs, ?_, by decide, by decide, by decide⟩
      simp [renderPlain, intToStr, hn]
    · obtain ⟨c, t, hct⟩ := natToDigs_cons n.toNat
      have hd : isDig c = true := natToDigs_digits n.toNat c (by rw [hct]; simp)
      have hd' := (isDig_iff_toNat c).mp hd
      refine ⟨c, t, ?_, isWs_false_of_digit c hd, ?_, ?_⟩
      · simp [renderPlain, intToStr, hn, hct]
      · rw [Ne, char_eq_iff_toNat]
        have : (']' : Char).toNat = 93 := rfl
        omega
      · rw [Ne, char_eq_iff_toNat]
        have : ('\x7d' : Char).toNat = 125 := rfl
        omega
  | str s =>
    refine ⟨'"', escStr s ++ ['"'], ?_, by decide, by decide, by decide⟩
    simp [renderPlain, renderStr]
  | arr xs =>
    cases xs with
    | nil => exact ⟨'[', [']'], by simp [renderPlain], by decide, by decide, by decide⟩
    | cons x rest =>
      refine ⟨'[', nlInd (lvl + 1) ++ renderPlain (lvl + 1) x ++ renderItems (lvl + 1) rest
        ++ nlInd lvl ++ [']'], ?_, by decide, by decide, by decide⟩
      simp [renderPlain]
  | obj kvs =>
    cases kvs with
    | nil => exact ⟨'\x7b', ['\x7d'], by simp [renderPlain], by decide, by decide, by decide⟩
    | cons kv rest =>
      refine ⟨'\x7b', nlInd (lvl + 1) ++ renderMember (lvl + 1) kv
        ++ renderMembers (lvl + 1) rest ++ nlInd lvl ++ ['\x7d'], ?_, by decide, by decide,
        by decide⟩
      simp [renderPlain]

/-! The fuel `jloads` passes (input length plus one) always covers the
parser's nesting needs on rendered output. -/

theorem jsize_le_renderLen (j : Json) : ∀ lvl, jsize j ≤ (renderPlain lvl j).length := by
  induction j using Json.myInd with
  | h0 => intro lvl; simp [renderPlain, jsize, st]
  | h1 b => intro lvl; cases b <;> simp [renderPlain, jsize, st]
  | h2 n =>
    intro lvl
    simp only [jsize]
    obtain ⟨c, t, hct⟩ := natToDigs_cons n.toNat
    obtain ⟨c', t', hct'⟩ := natToDigs_cons n.natAbs
    simp only [renderPlain, intToStr]
    split <;> simp [hct, hct']
  | h3 s => intro lvl; simp [renderPlain, jsize, renderStr]
  | h4 xs ih =>
    have aux : ∀ (l : List Json), (∀ x ∈ l, ∀ lvl, jsize x ≤ (renderPlain lvl x).length) →
        ∀ lvl, jsizeItems l ≤ (renderItems lvl l).length + 2 := by
      intro l
      induction l with
      | nil => intro _ lvl; simp [jsizeItems, renderItems]
      | cons x rest ihl =>
        intro hmem lvl
        have hx := hmem x (by simp) lvl
        have hrest := ihl (fun y hy => hmem y (by simp [hy])) lvl
        simp only [jsizeItems, renderItems, List.length_cons, List.length_append, nlInd]
        omega
    intro lvl
    cases xs with
    | nil => simp [renderPlain, jsize, jsizeItems]
    | cons x rest =>
      have hx := ih x (by simp) (lvl + 1)
      have hrest := aux rest (fun y hy => ih y (by simp [hy])) (lvl + 1)
      simp only [jsize, jsizeItems, renderPlain, List.length_cons, List.length_append, nlInd]
      omega
  | h5 kvs ih =>
    have aux : ∀ (l : List (Str × Json)),
        (∀ kv ∈ l, ∀ lvl, jsize kv.2 ≤ (renderPlain lvl kv.2).length) →
        ∀ lvl, jsizeMembers l ≤ (renderMembers lvl l).length + 2 := by
      intro l
      induction l with
      | nil => intro _ lvl; simp [jsizeMembers, renderMembers]
      | cons kv rest ihl =>
        intro hmem lvl
        have hx := hmem kv (by simp) lvl
        have hrest := ihl (fun q hq => hmem q (by simp [hq])) lvl
        obtain ⟨k, v⟩ := kv
        simp only [jsizeMembers, renderMembers, renderMember, List.length_cons,
          List.length_append, nlInd, renderStr] at hx hrest ⊢
        omega
    intro lvl
    cases kvs with
    | nil => simp [renderPlain, jsize, jsizeMembers]
    | cons kv rest =>
      have hx := ih kv (by simp) (lvl + 1)
      have hrest := aux rest (fun q hq => ih q (by simp [hq])) (lvl + 1)
      obtain ⟨k, v⟩ := kv
      simp only [jsize, jsizeMembers, renderPlain, renderMember, renderStr, List.length_cons,
        List.length_append, nlInd] at hx hrest ⊢
      omega

/-! Helpers for the value-level round trip. -/

theorem numOkHead_of_skipWs (t : Str) (d : Char) (r : Str) (h : skipWs t = d :: r)
    (hd : isDig d = false ∧ d ≠ '.' ∧ d ≠ 'e' ∧ d ≠ 'E') : numOkHead t := by
  cases t with
  | nil => exact absurd h (by simp [skipWs])
  | cons c t' =>
    by_cases hw : isWs c = true
    · show isDig c = false ∧ c ≠ '.' ∧ c ≠ 'e' ∧ c ≠ 'E'
      rw [isWs_iff_toNat] at hw
      have hdig : isDig c = false := by
        rw [Bool.eq_false_iff]
        intro hc
        rw [isDig_iff_toNat] at hc
        omega
      refine ⟨hdig, ?_, ?_, ?_⟩ <;> (rw [Ne, char_eq_iff_toNat]; intro hc)
      · have : ('.' : Char).toNat = 46 := rfl
        omega
      · have : ('e' : Char).toNat = 101 := rfl
        omega
      · have : ('E' : Char).toNat = 69 := rfl
        omega
    · rw [skipWs_cons_not_ws c t' (by simpa using hw)] at h
      have hcd : c = d := (List.cons.injEq _ _ _ _ ▸ h).1
      subst hcd
      exact hd

theorem keyMem_append (k : Str) (d1 d2 : List (Str × Json)) :
    keyMem k (d1 ++ d2) = (keyMem k d1 || keyMem k d2) := by
  induction d1 with
  | nil => simp [keyMem]
  | cons q rest ih =>
    obtain ⟨kq, vq⟩ := q
    simp [keyMem, ih, Bool.or_assoc]

theorem dedupPairs_eq (kvs : List (Str × Json)) (h : nodupKeys kvs = true) :
    dedupPairs kvs = kvs := by
  have aux : ∀ (l : List (Str × Json)) (d0 : List (Str × Json)),
      (∀ q ∈ l, keyMem q.1 d0 = false) → nodupKeys l = true →
      l.foldl (fun d kv => dinsert kv.1 kv.2 d) d0 = d0 ++ l := by
    intro l
    induction l with
    | nil => intro d0 _ _; simp
    | cons q rest ih =>
      intro d0 hmem hnd
      obtain ⟨kq, vq⟩ := q
      simp only [nodupKeys, Bool.and_eq_true, Bool.not_eq_true'] at hnd
      simp only [List.foldl_cons]
      rw [dinsert_of_not_mem kq vq d0
        (fun kv hkv => (keyMem_false_iff kq d0).mp (hmem (kq, vq) (by simp)) kv hkv)]
      rw [ih (d0 ++ [(kq, vq)]) ?_ hnd.2]
      · simp
      · intro p hp
        rw [keyMem_append]
        have h1 : keyMem p.1 d0 = false := hmem p (by simp [hp])
        have h2 : keyMem p.1 [(kq, vq)] = false := by
          have hne := (keyMem_false_iff kq rest).mp hnd.1 p hp
          simp [keyMem]
          intro hc
          exact absurd hc.symm hne
        rw [h1, h2]
        rfl
  exact aux kvs [] (fun q _ => rfl) h

theorem parseVal_congr (f : Nat) (s1 s2 : Str) (h : skipWs s1 = skipWs s2) :
    parseVal (f + 1) s1 = parseVal (f + 1) s2 := by
  simp only [parseVal]
  rw [h]

theorem jsize_pos (j : Json) : 1 ≤ jsize j := by
  cases j <;> simp [jsize]

theorem jsizeItems_pos (l : List Json) : 1 ≤ jsizeItems l := by
  cases l with
  | nil => simp [jsizeItems]
  | cons a t => simp only [jsizeItems]; omega

theorem jsizeMembers_pos (l : List (Str × Json)) : 1 ≤ jsizeMembers l := by
  cases l with
  | nil => simp [jsizeMembers]
  | cons a t => simp only [jsizeMembers]; omega

theorem numOkHead_cons (c : Char) (t : Str)
    (h : isDig c = false ∧ c ≠ '.' ∧ c ≠ 'e' ∧ c ≠ 'E') : numOkHead (c :: t) := h

/-- Round trip for the element list of a non-empty array: `parseItems`
recovers exactly the elements `renderItems` laid out, consuming the
closing bracket. -/
theorem parseItems_render (xs : List Json) : ∀ (x : Json),
    (∀ y ∈ x :: xs, ∀ f lvl rest, jsize y ≤ f → numOkHead rest →
      parseVal f (renderPlain lvl y ++ rest) = some (y, rest)) →
    ∀ f lvl ws tail rest, (∀ c ∈ ws, isWs c = true) → skipWs tail = ']' :: rest →
      jsizeItems (x :: xs) ≤ f →
      parseItems f (ws ++ (renderPlain lvl x ++ (renderItems lvl xs ++ tail))) =
        some (x :: xs, rest) := by
  induction xs with
  | nil =>
    intro x hRT f lvl ws tail rest hws htail hf
    simp only [jsizeItems] at hf
    have hx1 := jsize_pos x
    obtain ⟨g, rfl⟩ : ∃ g, f = g + 1 := ⟨f - 1, by omega⟩
    simp only [parseItems]
    obtain ⟨g', rfl⟩ : ∃ g', g = g' + 1 := ⟨g - 1, by omega⟩
    rw [parseVal_congr g' _ (renderPlain lvl x ++ (renderItems lvl [] ++ tail))
      (skipWs_ws_append ws hws _)]
    rw [show renderItems lvl ([] : List Json) = [] from by simp [renderItems],
      List.nil_append]
    have hnum : numOkHead tail := numOkHead_of_skipWs tail ']' rest htail (by decide)
    rw [hRT x (by simp) (g' + 1) lvl tail (by omega) hnum]
    simp only [htail, headIs]
    simp
  | cons y ys ih =>
    intro x hRT f lvl ws tail rest hws htail hf
    simp only [jsizeItems] at hf
    have hx1 := jsize_pos x
    have hy1 := jsize_pos y
    have hys1 := jsizeItems_pos ys
    obtain ⟨g, rfl⟩ : ∃ g, f = g + 1 := ⟨f - 1, by omega⟩
    simp only [parseItems]
    obtain ⟨g', rfl⟩ : ∃ g', g = g' + 1 := ⟨g - 1, by omega⟩
    rw [parseVal_congr g' _ (renderPlain lvl x ++ (renderItems lvl (y :: ys) ++ tail))
      (skipWs_ws_append ws hws _)]
    have hitems : renderItems lvl (y :: ys) =
        ',' :: (nlInd lvl ++ renderPlain lvl y ++ renderItems lvl ys) := by
      simp [renderItems]
    have hnum : numOkHead (renderItems lvl (y :: ys) ++ tail) := by
      rw [hitems]
      exact numOkHead_cons ',' _ (by decide)
    rw [hRT x (by simp) (g' + 1) lvl (renderItems lvl (y :: ys) ++ tail) (by omega) hnum]
    simp only [hitems]
    rw [show skipWs ((',' :: (nlInd lvl ++ renderPlain lvl y ++ renderItems lvl ys)) ++ tail) =
      ',' :: ((nlInd lvl ++ renderPlain lvl y ++ renderItems lvl ys) ++ tail) from
      skipWs_cons_not_ws _ _ (by decide)]
    have hrec := ih y (fun z hz => hRT z (by simp at hz ⊢; tauto)) (g' + 1) lvl (nlInd lvl)
      tail rest (nlInd_all_ws lvl) htail (by simp only [jsizeItems]; omega)
    rw [show (nlInd lvl ++ renderPlain lvl y ++ renderItems lvl ys) ++ tail =
      nlInd lvl ++ (renderPlain lvl y ++ (renderItems lvl ys ++ tail)) from by
        simp [List.append_assoc]]
    simp [headIs, hrec]

/-- Round trip for the member list of a non-empty object: `parseMembers`
recovers exactly the members `renderMembers` laid out, consuming the
closing brace. -/
theorem parseMembers_render (kvs : List (Str × Json)) : ∀ (k : Str) (v : Json),
    (∀ q ∈ (k, v) :: kvs, ∀ f lvl rest, jsize q.2 ≤ f → numOkHead rest →
      parseVal f (renderPlain lvl q.2 ++ rest) = some (q.2, rest)) →
    ∀ f lvl ws tail rest, (∀ c ∈ ws, isWs c = true) → skipWs tail = '\x7d' :: rest →
      jsizeMembers ((k, v) :: kvs) ≤ f →
      parseMembers f (ws ++ (renderMember lvl (k, v) ++ (renderMembers lvl kvs ++ tail))) =
        some ((k, v) :: kvs, rest) := by
  induction kvs with
  | nil =>
    intro k v hRT f lvl ws tail rest hws htail hf
    simp only [jsizeMembers] at hf
    have hv1 := jsize_pos v
    obtain ⟨g, rfl⟩ : ∃ g, f = g + 1 := ⟨f - 1, by omega⟩
    simp only [parseMembers]
    rw [skipWs_ws_append ws hws]
    rw [show renderMembers lvl ([] : List (Str × Json)) = [] from by simp [renderMembers],
      List.nil_append]
    rw [show renderMember lvl (k, v) ++ tail =
      '"' :: (escStr k ++ '"' :: (':' :: ' ' :: (renderPlain lvl v ++ tail))) from by
        simp [renderMember, renderStr, List.append_assoc]]
    rw [skipWs_cons_not_ws _ _ (by decide)]
    simp only [show (('"' : Char) = '"') = True by simp, if_true]
    have hklen : k.length <
        (escStr k ++ '"' :: (':' :: ' ' :: (renderPlain lvl v ++ tail))).length + 1 := by
      have h1 := escStr_length k
      simp only [List.length_append, List.length_cons]
      omega
    rw [parseStrBody_escStr k _ (':' :: ' ' :: (renderPlain lvl v ++ tail)) hklen]
    simp only [skipWs_cons_not_ws ':' (' ' :: (renderPlain lvl v ++ tail)) (by decide),
      show ((':' : Char) = ':') = True by simp, if_true]
    obtain ⟨g', rfl⟩ : ∃ g', g = g' + 1 := ⟨g - 1, by omega⟩
    rw [show (' ' :: (renderPlain lvl v ++ tail) : Str) = [' '] ++ (renderPlain lvl v ++ tail)
      from rfl]
    rw [parseVal_congr g' _ (renderPlain lvl v ++ tail)
      (skipWs_ws_append [' '] (by decide) _)]
    have hnum : numOkHead tail := numOkHead_of_skipWs tail '\x7d' rest htail (by decide)
    rw [hRT (k, v) (by simp) (g' + 1) lvl tail (by show jsize v ≤ g' + 1; omega) hnum]
    simp only [htail, headIs]
    simp
  | cons q qs ih =>
    intro k v hRT f lvl ws tail rest hws htail hf
    obtain ⟨k2, v2⟩ := q
    simp only [jsizeMembers] at hf
    have hv1 := jsize_pos v
    have hv2 := jsize_pos v2
    have hqs1 := jsizeMembers_pos qs
    obtain ⟨g, rfl⟩ : ∃ g, f = g + 1 := ⟨f - 1, by omega⟩
    simp only [parseMembers]
    rw [skipWs_ws_append ws hws]
    have hmems : renderMembers lvl ((k2, v2) :: qs) =
        ',' :: (nlInd lvl ++ renderMember lvl (k2, v2) ++ renderMembers lvl qs) := by
      simp [renderMembers]
    rw [show renderMember lvl (k, v) ++ (renderMembers lvl ((k2, v2) :: qs) ++ tail) =
      '"' :: (escStr k ++ '"' :: (':' :: ' ' :: (renderPlain lvl v ++
        (renderMembers lvl ((k2, v2) :: qs) ++ tail)))) from by
        simp [renderMember, renderStr, List.append_assoc]]
    rw [skipWs_cons_not_ws _ _ (by decide)]
    simp only [show (('"' : Char) = '"') = True by simp, if_true]
    have hklen : k.length < (escStr k ++ '"' :: (':' :: ' ' :: (renderPlain lvl v ++
        (renderMembers lvl ((k2, v2) :: qs) ++ tail)))).length + 1 := by
      have h1 := escStr_length k
      simp only [List.length_append, List.length_cons]
      omega
    rw [parseStrBody_escStr k _ _ hklen]
    simp only [skipWs_cons_not_ws ':'
        (' ' :: (renderPlain lvl v ++ (renderMembers lvl ((k2, v2) :: qs) ++ tail))) (by decide),
      show ((':' : Char) = ':') = True by simp, if_true]
    obtain ⟨g', rfl⟩ : ∃ g', g = g' + 1 := ⟨g - 1, by omega⟩
    rw [show (' ' :: (renderPlain lvl v ++ (renderMembers lvl ((k2, v2) :: qs) ++ tail)) : Str) =
      [' '] ++ (renderPlain lvl v ++ (renderMembers lvl ((k2, v2) :: qs) ++ tail)) from rfl]
    rw [parseVal_congr g' _ (renderPlain lvl v ++ (renderMembers lvl ((k2, v2) :: qs) ++ tail))
      (skipWs_ws_append [' '] (by decide) _)]
    have hnum : numOkHead (renderMembers lvl ((k2, v2) :: qs) ++ tail) := by
      rw [hmems]
      exact numOkHead_cons ',' _ (by decide)
    rw [hRT (k, v) (by simp) (g' + 1) lvl _ (by show jsize v ≤ g' + 1; omega) hnum]
    simp only [hmems]
    rw [show skipWs ((',' :: (nlInd lvl ++ renderMember lvl (k2, v2) ++ renderMembers lvl qs))
        ++ tail) =
      ',' :: ((nlInd lvl ++ renderMember lvl (k2, v2) ++ renderMembers lvl qs) ++ tail) from
      skipWs_cons_not_ws _ _ (by decide)]
    have hrec := ih k2 v2 (fun z hz => hRT z (by simp at hz ⊢; tauto)) (g' + 1) lvl (nlInd lvl)
      tail rest (nlInd_all_ws lvl) htail (by simp only [jsizeMembers]; omega)
    rw [show (nlInd lvl ++ renderMember lvl (k2, v2) ++ renderMembers lvl qs) ++ tail =
      nlInd lvl ++ (renderMember lvl (k2, v2) ++ (renderMembers lvl qs ++ tail)) from by
        simp [List.append_assoc]]
    simp [headIs, hrec]

theorem wfItems_mem (l : List Json) (h : wfItems l = true) : ∀ x ∈ l, wfJ x = true := by
  induction l with
  | nil => simp
  | cons a t ih =>
    simp only [wfItems, Bool.and_eq_true] at h
    intro x hx
    rcases List.mem_cons.mp hx with rfl | hx
    · exact h.1
    · exact ih h.2 x hx

theorem wfMems_mem (l : List (Str × Json)) (h : wfMems l = true) :
    ∀ kv ∈ l, wfJ kv.2 = true := by
  induction l with
  | nil => simp
  | cons a t ih =>
    simp only [wfMems, Bool.and_eq_true] at h
    intro kv hkv
    rcases List.mem_cons.mp hkv with rfl | hkv
    · exact h.1
    · exact ih h.2 kv hkv

theorem char_eq_false_of_toNat {c d : Char} (h : c.toNat ≠ d.toNat) : (c = d) = False := by
  simp only [eq_iff_iff, iff_false]
  rw [char_eq_iff_toNat]
  exact h

/-- The value-level round trip: parsing the rendered text of a
well-formed value, with any non-numeric continuation, returns exactly the
value and the continuation, whenever the fuel covers the value's size. -/
theorem parseVal_render (j : Json) : ∀ f lvl rest, jsize j ≤ f → wfJ j = true →
    numOkHead rest → parseVal f (renderPlain lvl j ++ rest) = some (j, rest) := by
  induction j using Json.myInd with
  | h0 =>
    intro f lvl rest hf _ _
    obtain ⟨g, rfl⟩ : ∃ g, f = g + 1 := ⟨f - 1, by have := jsize_pos Json.null; omega⟩
    rw [show renderPlain lvl Json.null = st "null" from by simp [renderPlain]]
    rfl
  | h1 b =>
    intro f lvl rest hf _ _
    obtain ⟨g, rfl⟩ : ∃ g, f = g + 1 := ⟨f - 1, by have := jsize_pos (Json.bool b); omega⟩
    cases b with
    | true =>
      rw [show renderPlain lvl (Json.bool true) = st "true" from by simp [renderPlain]]
      rfl
    | false =>
      rw [show renderPlain lvl (Json.bool false) = st "false" from by simp [renderPlain]]
      rfl
  | h2 n =>
    intro f lvl rest hf _ hnum
    obtain ⟨g, rfl⟩ : ∃ g, f = g + 1 := ⟨f - 1, by have := jsize_pos (Json.num n); omega⟩
    rw [show renderPlain lvl (Json.num n) = intToStr n from by simp [renderPlain]]
    have hhead : ∃ c t, intToStr n = c :: t ∧
        (c.toNat = 45 ∨ (48 ≤ c.toNat ∧ c.toNat ≤ 57)) := by
      unfold intToStr
      split
      · exact ⟨'-', _, rfl, Or.inl rfl⟩
      · obtain ⟨c, t, hct⟩ := natToDigs_cons n.toNat
        have hd := (isDig_iff_toNat c).mp (natToDigs_digits n.toNat c (by rw [hct]; simp))
        exact ⟨c, t, hct, Or.inr hd⟩
    obtain ⟨c, t, hct, hcr⟩ := hhead
    have hws : isWs c = false := by
      rw [Bool.eq_false_iff]
      intro h
      rw [isWs_iff_toNat] at h
      omega
    rw [hct]
    simp only [List.cons_append, parseVal, skipWs_cons_not_ws c (t ++ rest) hws,
      char_eq_false_of_toNat (show c.toNat ≠ ('n' : Char).toNat from by
        rw [show ('n' : Char).toNat = 110 from rfl]; omega),
      char_eq_false_of_toNat (show c.toNat ≠ ('t' : Char).toNat from by
        rw [show ('t' : Char).toNat = 116 from rfl]; omega),
      char_eq_false_of_toNat (show c.toNat ≠ ('f' : Char).toNat from by
        rw [show ('f' : Char).toNat = 102 from rfl]; omega),
      char_eq_false_of_toNat (show c.toNat ≠ ('"' : Char).toNat from by
        rw [show ('"' : Char).toNat = 34 from rfl]; omega),
      char_eq_false_of_toNat (show c.toNat ≠ ('[' : Char).toNat from by
        rw [show ('[' : Char).toNat = 91 from rfl]; omega),
      char_eq_false_of_toNat (show c.toNat ≠ ('\x7b' : Char).toNat from by
        rw [show ('\x7b' : Char).toNat = 123 from rfl]; omega),
      if_false]
    rw [show c :: (t ++ rest) = intToStr n ++ rest from by rw [hct]; simp,
      parseNum_intToStr n rest hnum]
  | h3 s =>
    intro f lvl rest hf _ _
    obtain ⟨g, rfl⟩ : ∃ g, f = g + 1 := ⟨f - 1, by have := jsize_pos (Json.str s); omega⟩
    rw [show renderPlain lvl (Json.str s) = '"' :: (escStr s ++ ['"']) from by
      simp [renderPlain, renderStr]]
    rw [show ('"' :: (escStr s ++ ['"'])) ++ rest = '"' :: (escStr s ++ '"' :: rest) from by
      simp]
    simp only [parseVal, skipWs_cons_not_ws '"' _ (by decide),
      show (('"' : Char) = 'n') = False by simp,
      show (('"' : Char) = 't') = False by simp,
      show (('"' : Char) = 'f') = False by simp,
      show (('"' : Char) = '"') = True by simp, if_false, if_true]
    rw [parseStrBody_escStr s _ rest (by
      have := escStr_length s
      simp only [List.length_append, List.length_cons]
      omega)]
  | h4 xs ih =>
    intro f lvl rest hf hwf hnum
    cases xs with
    | nil =>
      obtain ⟨g, rfl⟩ : ∃ g, f = g + 1 :=
        ⟨f - 1, by have := jsize_pos (Json.arr []); omega⟩
      rw [show renderPlain lvl (Json.arr []) = ['[', ']'] from by simp [renderPlain]]
      rfl
    | cons x xs =>
      have hwf' : wfItems (x :: xs) = true := by simpa [wfJ] using hwf
      have hRT : ∀ y ∈ x :: xs, ∀ f lvl rest, jsize y ≤ f → numOkHead rest →
          parseVal f (renderPlain lvl y ++ rest) = some (y, rest) :=
        fun y hy f lvl rest hfy hny =>
          ih y hy f lvl rest hfy (wfItems_mem _ hwf' y hy) hny
      simp only [jsize] at hf
      have h1 := jsizeItems_pos (x :: xs)
      obtain ⟨g, rfl⟩ : ∃ g, f = g + 1 := ⟨f - 1, by omega⟩
      rw [show renderPlain lvl (Json.arr (x :: xs)) =
        '[' :: (nlInd (lvl + 1) ++ renderPlain (lvl + 1) x ++ renderItems (lvl + 1) xs
          ++ nlInd lvl ++ [']']) from by simp [renderPlain]]
      rw [show ('[' :: (nlInd (lvl + 1) ++ renderPlain (lvl + 1) x
          ++ renderItems (lvl + 1) xs ++ nlInd lvl ++ [']'])) ++ rest =
        '[' :: (nlInd (lvl + 1) ++ (renderPlain (lvl + 1) x ++ (renderItems (lvl + 1) xs
          ++ (nlInd lvl ++ (']' :: rest))))) from by simp [List.append_assoc]]
      obtain ⟨hc, ht, hhd, hnws, hnrb, hnrc⟩ := renderPlain_head (lvl + 1) x
      have hskip : skipWs (nlInd (lvl + 1) ++ (renderPlain (lvl + 1) x
          ++ (renderItems (lvl + 1) xs ++ (nlInd lvl ++ (']' :: rest))))) =
          renderPlain (lvl + 1) x ++ (renderItems (lvl + 1) xs
            ++ (nlInd lvl ++ (']' :: rest))) := by
        rw [skipWs_nlInd, hhd, List.cons_append, skipWs_cons_not_ws hc _ hnws]
      simp only [parseVal, skipWs_cons_not_ws '[' _ (by decide),
        show (('[' : Char) = 'n') = False by simp,
        show (('[' : Char) = 't') = False by simp,
        show (('[' : Char) = 'f') = False by simp,
        show (('[' : Char) = '"') = False by simp,
        show (('[' : Char) = '[') = True by simp, if_false, if_true, hskip]
      rw [show headIs (renderPlain (lvl + 1) x ++ (renderItems (lvl + 1) xs
          ++ (nlInd lvl ++ (']' :: rest)))) ']' = false from by
        rw [hhd]
        simp only [List.cons_append, headIs]
        simp [hnrb]]
      simp only [Bool.false_eq_true, if_false]
      rw [parseItems_render xs x hRT g (lvl + 1) (nlInd (lvl + 1))
        (nlInd lvl ++ (']' :: rest)) rest (nlInd_all_ws _)
        (by rw [skipWs_nlInd]; exact skipWs_cons_not_ws ']' rest (by decide))
        (by omega)]
  | h5 kvs ih =>
    intro f lvl rest hf hwf hnum
    cases kvs with
    | nil =>
      obtain ⟨g, rfl⟩ : ∃ g, f = g + 1 :=
        ⟨f - 1, by have := jsize_pos (Json.obj []); omega⟩
      rw [show renderPlain lvl (Json.obj []) = ['\x7b', '\x7d'] from by simp [renderPlain]]
      rfl
    | cons kv kvs =>
      obtain ⟨k, v⟩ := kv
      have hwfsplit : nodupKeys ((k, v) :: kvs) = true ∧ wfMems ((k, v) :: kvs) = true := by
        have := hwf
        simp only [wfJ, Bool.and_eq_true] at this
        exact this
      have hRT : ∀ q ∈ (k, v) :: kvs, ∀ f lvl rest, jsize q.2 ≤ f → numOkHead rest →
          parseVal f (renderPlain lvl q.2 ++ rest) = some (q.2, rest) :=
        fun q hq f lvl rest hfq hnq =>
          ih q hq f lvl rest hfq (wfMems_mem _ hwfsplit.2 q hq) hnq
      simp only [jsize] at hf
      have h1 := jsizeMembers_pos ((k, v) :: kvs)
      obtain ⟨g, rfl⟩ : ∃ g, f = g + 1 := ⟨f - 1, by omega⟩
      rw [show renderPlain lvl (Json.obj ((k, v) :: kvs)) =
        '\x7b' :: (nlInd (lvl + 1) ++ renderMember (lvl + 1) (k, v)
          ++ renderMembers (lvl + 1) kvs ++ nlInd lvl ++ ['\x7d']) from by simp [renderPlain]]
      rw [show ('\x7b' :: (nlInd (lvl + 1) ++ renderMember (lvl + 1) (k, v)
          ++ renderMembers (lvl + 1) kvs ++ nlInd lvl ++ ['\x7d'])) ++ rest =
        '\x7b' :: (nlInd (lvl + 1) ++ (renderMember (lvl + 1) (k, v)
          ++ (renderMembers (lvl + 1) kvs ++ (nlInd lvl ++ ('\x7d' :: rest))))) from by
          simp [List.append_assoc]]
      have hmemhead : renderMember (lvl + 1) (k, v) =
          '"' :: (escStr k ++ ['"'] ++ (':' :: ' ' :: renderPlain (lvl + 1) v)) := by
        simp [renderMember, renderStr]
      have hskip : skipWs (nlInd (lvl + 1) ++ (renderMember (lvl + 1) (k, v)
          ++ (renderMembers (lvl + 1) kvs ++ (nlInd lvl ++ ('\x7d' :: rest))))) =
          renderMember (lvl + 1) (k, v) ++ (renderMembers (lvl + 1) kvs
            ++ (nlInd lvl ++ ('\x7d' :: rest))) := by
        rw [skipWs_nlInd, hmemhead, List.cons_append, skipWs_cons_not_ws '"' _ (by decide)]
      simp only [parseVal, skipWs_cons_not_ws '\x7b' _ (by decide),
        show (('\x7b' : Char) = 'n') = False by simp,
        show (('\x7b' : Char) = 't') = False by simp,
        show (('\x7b' : Char) = 'f') = False by simp,
        show (('\x7b' : Char) = '"') = False by simp,
        show (('\x7b' : Char) = '[') = False by simp,
        show (('\x7b' : Char) = '\x7b') = True by simp, if_false, if_true, hskip]
      rw [show headIs (renderMember (lvl + 1) (k, v) ++ (renderMembers (lvl + 1) kvs
          ++ (nlInd lvl ++ ('\x7d' :: rest)))) '\x7d' = false from by
        rw [hmemhead]
        simp only [List.cons_append, headIs]
        simp]
      simp only [Bool.false_eq_true, if_false]
      rw [parseMembers_render kvs k v hRT g (lvl + 1) (nlInd (lvl + 1))
        (nlInd lvl ++ ('\x7d' :: rest)) rest (nlInd_all_ws _)
        (by rw [skipWs_nlInd]; exact skipWs_cons_not_ws '\x7d' rest (by decide))
        (by omega)]
      show some (Json.obj (dedupPairs ((k, v) :: kvs)), rest) =
        some (Json.obj ((k, v) :: kvs), rest)
      rw [dedupPairs_eq _ hwfsplit.1]

/-- Parsing the full rendered text of a well-formed value (plus the final
newline the file writers append) returns exactly the value. -/
theorem jloads_render (j : Json) (hwf : wfJ j = true) :
    jloads (renderPlain 0 j ++ ['\n']) = some j := by
  unfold jloads
  rw [parseVal_render j ((renderPlain 0 j ++ ['\n']).length + 1) 0 ['\n']
    (by
      have := jsize_le_renderLen j 0
      simp only [List.length_append, List.length_cons, List.length_nil]
      omega)
    hwf (numOkHead_cons '\n' [] (by decide))]
  rfl

/-! Sorting object members (for `sort_keys=True`) is a permutation, so it
preserves well-formedness and Python dict equality. -/

theorem insertByKey_perm (p : Str × Json) (l : List (Str × Json)) :
    List.Perm (insertByKey p l) (p :: l) := by
  induction l with
  | nil => simp [insertByKey]
  | cons q rest ih =>
    rw [insertByKey]
    split
    · exact List.Perm.trans (List.Perm.cons q ih) (List.Perm.swap p q rest)
    · exact List.Perm.refl _

theorem sortByKey_perm (l : List (Str × Json)) : List.Perm (sortByKey l) l := by
  induction l with
  | nil => exact List.Perm.refl _
  | cons p rest ih =>
    rw [sortByKey]
    exact List.Perm.trans (insertByKey_perm p (sortByKey rest)) (List.Perm.cons p ih)

theorem keyMem_iff (k : Str) (l : List (Str × Json)) :
    keyMem k l = true ↔ k ∈ l.map Prod.fst := by
  induction l with
  | nil => simp [keyMem]
  | cons q rest ih =>
    obtain ⟨kq, vq⟩ := q
    simp [keyMem, ih]
    constructor
    · rintro (rfl | h)
      · exact Or.inl rfl
      · exact Or.inr h
    · rintro (rfl | h)
      · exact Or.inl rfl
      · exact Or.inr h

theorem nodupKeys_iff (l : List (Str × Json)) :
    nodupKeys l = true ↔ (l.map Prod.fst).Nodup := by
  induction l with
  | nil => simp [nodupKeys]
  | cons q rest ih =>
    obtain ⟨kq, vq⟩ := q
    simp only [nodupKeys, Bool.and_eq_true, Bool.not_eq_true', List.map_cons,
      List.nodup_cons, ih]
    constructor
    · rintro ⟨h1, h2⟩
      refine ⟨?_, h2⟩
      intro hmem
      rw [← keyMem_iff] at hmem
      rw [hmem] at h1
      exact Bool.noConfusion h1
    · rintro ⟨h1, h2⟩
      refine ⟨?_, h2⟩
      rw [Bool.eq_false_iff]
      intro hmem
      rw [keyMem_iff] at hmem
      exact h1 hmem

theorem nodupKeys_of_perm (l l' : List (Str × Json)) (hp : List.Perm l l')
    (h : nodupKeys l = true) : nodupKeys l' = true := by
  rw [nodupKeys_iff] at h ⊢
  exact ((hp.map Prod.fst).nodup_iff).mp h

theorem lookupJ_some_mem (k : Str) (l : List (Str × Json)) (v : Json)
    (h : lookupJ k l = some v) : (k, v) ∈ l := by
  induction l with
  | nil => simp [lookupJ] at h
  | cons q rest ih =>
    obtain ⟨kq, vq⟩ := q
    by_cases hk : kq = k
    · subst hk
      simp [lookupJ] at h
      subst h
      simp
    · simp [lookupJ, hk] at h
      exact List.mem_cons_of_mem _ (ih h)

theorem mem_lookupJ_nodup (l : List (Str × Json)) (hnd : nodupKeys l = true)
    (k : Str) (v : Json) (h : (k, v) ∈ l) : lookupJ k l = some v := by
  induction l with
  | nil => simp at h
  | cons q rest ih =>
    obtain ⟨kq, vq⟩ := q
    simp only [nodupKeys, Bool.and_eq_true, Bool.not_eq_true'] at hnd
    rcases List.mem_cons.mp h with h' | h'
    · obtain ⟨rfl, rfl⟩ := Prod.mk.injEq _ _ _ _ ▸ h'
      · simp [lookupJ]
    · have hk : kq ≠ k := by
        intro hc
        subst hc
        have := (keyMem_false_iff kq rest).mp hnd.1 (kq, v) h'
        exact this rfl
      simp [lookupJ, hk]
      exact ih hnd.2 h'

theorem lookupJ_of_perm (l l' : List (Str × Json)) (hp : List.Perm l l')
    (hnd : nodupKeys l' = true) (k : Str) : lookupJ k l = lookupJ k l' := by
  cases h : lookupJ k l with
  | none =>
    rw [lookupJ_none_iff] at h
    symm
    rw [lookupJ_none_iff]
    intro kv hkv
    exact h kv (hp.symm.subset hkv)
  | some v =>
    have hm : (k, v) ∈ l' := hp.subset (lookupJ_some_mem k l v h)
    exact (mem_lookupJ_nodup l' hnd k v hm).symm

theorem sortKeysList_eq_map (xs : List Json) : sortKeysList xs = xs.map sortKeys := by
  induction xs with
  | nil => simp [sortKeysList]
  | cons x rest ih => simp [sortKeysList, ih]

theorem sortKeysMembers_eq_map (kvs : List (Str × Json)) :
    sortKeysMembers kvs = kvs.map (fun kv => (kv.1, sortKeys kv.2)) := by
  induction kvs with
  | nil => simp [sortKeysMembers]
  | cons kv rest ih =>
    obtain ⟨k, v⟩ := kv
    simp [sortKeysMembers, ih]

theorem lookupJ_sortKeysMembers (k : Str) (kvs : List (Str × Json)) :
    lookupJ k (sortKeysMembers kvs) = (lookupJ k kvs).map sortKeys := by
  induction kvs with
  | nil => simp [sortKeysMembers, lookupJ]
  | cons kv rest ih =>
    obtain ⟨kq, vq⟩ := kv
    by_cases hk : kq = k
    · subst hk
      simp [sortKeysMembers, lookupJ]
    · simp [sortKeysMembers, lookupJ, hk, ih]

theorem wfItems_iff (l : List Json) : wfItems l = true ↔ ∀ x ∈ l, wfJ x = true := by
  induction l with
  | nil => simp [wfItems]
  | cons x rest ih => simp [wfItems, ih]

theorem wfMems_iff (l : List (Str × Json)) : wfMems l = true ↔ ∀ kv ∈ l, wfJ kv.2 = true := by
  induction l with
  | nil => simp [wfMems]
  | cons kv rest ih => simp [wfMems, ih]

theorem wfJ_sortKeys (j : Json) (h : wfJ j = true) : wfJ (sortKeys j) = true := by
  induction j using Json.myInd with
  | h0 => exact h
  | h1 b => exact h
  | h2 n => exact h
  | h3 s => exact h
  | h4 xs ih =>
    rw [show sortKeys (Json.arr xs) = .arr (sortKeysList xs) from by simp [sortKeys]]
    rw [show wfJ (Json.arr (sortKeysList xs)) = wfItems (sortKeysList xs) from by simp [wfJ]]
    rw [sortKeysList_eq_map, wfItems_iff]
    intro y hy
    obtain ⟨x, hx, rfl⟩ := List.mem_map.mp hy
    have hwx : wfJ x = true := by
      rw [show wfJ (Json.arr xs) = wfItems xs from by simp [wfJ]] at h
      exact (wfItems_iff xs).mp h x hx
    exact ih x hx hwx
  | h5 kvs ih =>
    rw [show sortKeys (Json.obj kvs) = .obj (sortByKey (sortKeysMembers kvs)) from by
      simp [sortKeys]]
    have hsplit : nodupKeys kvs = true ∧ wfMems kvs = true := by
      rw [show wfJ (Json.obj kvs) = (nodupKeys kvs && wfMems kvs) from by simp [wfJ]] at h
      exact Bool.and_eq_true _ _ ▸ h
    rw [show wfJ (Json.obj (sortByKey (sortKeysMembers kvs))) =
      (nodupKeys (sortByKey (sortKeysMembers kvs)) && wfMems (sortByKey (sortKeysMembers kvs)))
      from by simp [wfJ]]
    rw [Bool.and_eq_true]
    constructor
    · apply nodupKeys_of_perm (sortKeysMembers kvs) _ (sortByKey_perm _).symm
      rw [nodupKeys_iff, sortKeysMembers_eq_map]
      have : (kvs.map (fun kv => (kv.1, sortKeys kv.2))).map Prod.fst = kvs.map Prod.fst := by
        simp
      rw [this]
      exact (nodupKeys_iff kvs).mp hsplit.1
    · rw [wfMems_iff]
      intro kv hkv
      have hkv2 : kv ∈ sortKeysMembers kvs := (sortByKey_perm _).subset hkv
      rw [sortKeysMembers_eq_map] at hkv2
      obtain ⟨q, hq, rfl⟩ := List.mem_map.mp hkv2
      exact ih q hq ((wfMems_iff kvs).mp hsplit.2 q hq)

theorem pyEqMems_of (a b : List (Str × Json))
    (h : ∀ kv ∈ a, ∃ w, lookupJ kv.1 b = some w ∧ pyEq kv.2 w = true) :
    pyEqMems a b = true := by
  induction a with
  | nil => simp [pyEqMems]
  | cons kv rest ih =>
    obtain ⟨w, hw, hpe⟩ := h kv (by simp)
    simp only [pyEqMems, hw, hpe, Bool.and_eq_true, Bool.true_and]
    exact ih (fun q hq => h q (by simp [hq]))

theorem pyEqList_sortKeys (xs : List Json) (h : ∀ x ∈ xs, pyEq (sortKeys x) x = true) :
    pyEqList (xs.map sortKeys) xs = true := by
  induction xs with
  | nil => simp [pyEqList]
  | cons x rest ih =>
    simp only [List.map_cons, pyEqList, Bool.and_eq_true]
    exact ⟨h x (by simp), ih (fun y hy => h y (by simp [hy]))⟩

/-- Sorting the keys of a well-formed value leaves it Python-equal (`==`)
to the original: dict comparison is key-based, not order-based. -/
theorem pyEq_sortKeys (j : Json) (h : wfJ j = true) : pyEq (sortKeys j) j = true := by
  induction j using Json.myInd with
  | h0 => simp [sortKeys, pyEq]
  | h1 b => simp [sortKeys, pyEq]
  | h2 n => simp [sortKeys, pyEq]
  | h3 s => simp [sortKeys, pyEq]
  | h4 xs ih =>
    rw [show sortKeys (Json.arr xs) = .arr (sortKeysList xs) from by simp [sortKeys],
      sortKeysList_eq_map]
    rw [show pyEq (Json.arr (xs.map sortKeys)) (Json.arr xs) = pyEqList (xs.map sortKeys) xs
      from by simp [pyEq]]
    apply pyEqList_sortKeys
    intro x hx
    exact ih x hx (wfItems_mem _ (by simpa [wfJ] using h) x hx)
  | h5 kvs ih =>
    have hsplit : nodupKeys kvs = true ∧ wfMems kvs = true := by
      rw [show wfJ (Json.obj kvs) = (nodupKeys kvs && wfMems kvs) from by simp [wfJ]] at h
      exact Bool.and_eq_true _ _ ▸ h
    rw [show sortKeys (Json.obj kvs) = .obj (sortByKey (sortKeysMembers kvs)) from by
      simp [sortKeys]]
    rw [show pyEq (Json.obj (sortByKey (sortKeysMembers kvs))) (Json.obj kvs) =
      ((sortByKey (sortKeysMembers kvs)).length = kvs.length &&
        pyEqMems (sortByKey (sortKeysMembers kvs)) kvs) from by simp [pyEq]]
    rw [Bool.and_eq_true]
    constructor
    · have h1 : (sortByKey (sortKeysMembers kvs)).length = kvs.length := by
        rw [(sortByKey_perm (sortKeysMembers kvs)).length_eq, sortKeysMembers_eq_map,
          List.length_map]
      simp [h1]
    · apply pyEqMems_of
      intro kv hkv
      have hkv2 : kv ∈ sortKeysMembers kvs := (sortByKey_perm _).subset hkv
      rw [sortKeysMembers_eq_map] at hkv2
      obtain ⟨q, hq, rfl⟩ := List.mem_map.mp hkv2
      refine ⟨q.2, ?_, ?_⟩
      · exact mem_lookupJ_nodup kvs hsplit.1 q.1 q.2 (by
          obtain ⟨qk, qv⟩ := q
          exact hq)
      · exact ih q hq ((wfMems_iff kvs).mp hsplit.2 q hq)

theorem pyGet_obj (kvs : List (Str × Json)) (k : Str) :
    pyGet (Json.obj kvs) k = (match lookupJ k kvs with
      | some w => Except.ok w
      | none => Except.error (PyErr.keyError k)) := rfl

theorem pyGet_obj_ok (kvs : List (Str × Json)) (k : Str) (v : Json)
    (h : pyGet (Json.obj kvs) k = .ok v) : lookupJ k kvs = some v := by
  rw [pyGet_obj] at h
  cases h' : lookupJ k kvs with
  | some w =>
    rw [h'] at h
    rw [Except.ok.inj h]
  | none =>
    rw [h'] at h
    exact Except.noConfusion h

theorem pyGet_ok_obj (d : Json) (k : Str) (v : Json) (h : pyGet d k = .ok v) :
    ∃ kvs, d = .obj kvs ∧ lookupJ k kvs = some v := by
  cases d with
  | obj kvs => exact ⟨kvs, rfl, pyGet_obj_ok kvs k v h⟩
  | null => exact Except.noConfusion h
  | bool b => exact Except.noConfusion h
  | num n => exact Except.noConfusion h
  | str s => exact Except.noConfusion h
  | arr xs => exact Except.noConfusion h

/-- Looking a key up in the sorted members of a well-formed object finds
the key-sorted image of the original value. -/
theorem lookupJ_sortKeys_obj (kvs : List (Str × Json)) (hnd : nodupKeys kvs = true)
    (k : Str) :
    lookupJ k (sortByKey (sortKeysMembers kvs)) = (lookupJ k kvs).map sortKeys := by
  have hnd2 : nodupKeys (sortKeysMembers kvs) = true := by
    rw [nodupKeys_iff, sortKeysMembers_eq_map]
    have heq : (kvs.map (fun kv => (kv.1, sortKeys kv.2))).map Prod.fst = kvs.map Prod.fst := by
      simp
    rw [heq]
    exact (nodupKeys_iff kvs).mp hnd
  rw [lookupJ_of_perm (sortByKey (sortKeysMembers kvs)) (sortKeysMembers kvs)
    (sortByKey_perm _) hnd2 k]
  exact lookupJ_sortKeysMembers k kvs

/-- C6 (confirmed): for every well-formed document, reading back the file
written by `write_object_to_file` reconstructs a document equal to the
original in all four fields: `_index`, `_id`, `_type` literally (they are
strings, unchanged by key sorting), and `_source` up to Python `==`
(`json.dumps(.., sort_keys=True)` reorders dict keys, which Python dict
equality ignores). -/
theorem write_read_object_round_trip (d : Json) (hwf : wfJ d = true)
    (ix i t : Str) (src : Json)
    (hix : pyGet d (st "_index") = .ok (.str ix))
    (hid : pyGet d (st "_id") = .ok (.str i))
    (hty : pyGet d (st "_type") = .ok (.str t))
    (hsrc : pyGet d (st "_source") = .ok src) :
    ∃ fn content, write_object_to_file d = .ok (fn, content) ∧
      ∃ r, read_object_from_file content = .ok r ∧
        pyGet r (st "_index") = .ok (.str ix) ∧
        pyGet r (st "_id") = .ok (.str i) ∧
        pyGet r (st "_type") = .ok (.str t) ∧
        ∃ src2, pyGet r (st "_source") = .ok src2 ∧ pyEq src2 src = true := by
  obtain ⟨kvs, rfl, hlix⟩ := pyGet_ok_obj d (st "_index") (.str ix) hix
  have hlid' : lookupJ (st "_id") kvs = some (.str i) := pyGet_obj_ok _ _ _ hid
  have hlty' : lookupJ (st "_type") kvs = some (.str t) := pyGet_obj_ok _ _ _ hty
  have hlsrc' : lookupJ (st "_source") kvs = some src := pyGet_obj_ok _ _ _ hsrc
  have hsplit : nodupKeys kvs = true ∧ wfMems kvs = true := by
    rw [show wfJ (Json.obj kvs) = (nodupKeys kvs && wfMems kvs) from by simp [wfJ]] at hwf
    exact Bool.and_eq_true _ _ ▸ hwf
  refine ⟨t ++ '-' :: i ++ st ".json", json_dumps (Json.obj kvs) ++ ['\n'], ?_, ?_⟩
  · unfold write_object_to_file
    rw [hty, hid]
    rfl
  · refine ⟨sortKeys (Json.obj kvs), ?_, ?_, ?_, ?_, ?_⟩
    · unfold read_object_from_file
      rw [show json_dumps (Json.obj kvs) = renderPlain 0 (sortKeys (Json.obj kvs)) from rfl]
      rw [jloads_render _ (wfJ_sortKeys _ hwf)]
    · rw [show sortKeys (Json.obj kvs) = .obj (sortByKey (sortKeysMembers kvs)) from by
        simp [sortKeys]]
      rw [pyGet_obj, lookupJ_sortKeys_obj kvs hsplit.1, hlix]
      show Except.ok (sortKeys (Json.str ix)) = Except.ok (Json.str ix)
      simp [sortKeys]
    · rw [show sortKeys (Json.obj kvs) = .obj (sortByKey (sortKeysMembers kvs)) from by
        simp [sortKeys]]
      rw [pyGet_obj, lookupJ_sortKeys_obj kvs hsplit.1, hlid']
      show Except.ok (sortKeys (Json.str i)) = Except.ok (Json.str i)
      simp [sortKeys]
    · rw [show sortKeys (Json.obj kvs) = .obj (sortByKey (sortKeysMembers kvs)) from by
        simp [sortKeys]]
      rw [pyGet_obj, lookupJ_sortKeys_obj kvs hsplit.1, hlty']
      show Except.ok (sortKeys (Json.str t)) = Except.ok (Json.str t)
      simp [sortKeys]
    · refine ⟨sortKeys src, ?_, ?_⟩
      · rw [show sortKeys (Json.obj kvs) = .obj (sortByKey (sortKeysMembers kvs)) from by
          simp [sortKeys]]
        rw [pyGet_obj, lookupJ_sortKeys_obj kvs hsplit.1, hlsrc']
        rfl
      · have hwsrc : wfJ src = true :=
          (wfMems_iff kvs).mp hsplit.2 (st "_source", src)
            (lookupJ_some_mem _ _ _ hlsrc')
        exact pyEq_sortKeys src hwsrc

theorem write_read_object_round_trip_witness :
    ∃ fn content,
      write_object_to_file (Json.obj [(st "_index", .str (st "ki")),
        (st "_id", .str (st "d1")), (st "_type", .str (st "dash")),
        (st "_source", .obj [(st "a", .num 1)])]) = .ok (fn, content) ∧
      ∃ r, read_object_from_file content = .ok r ∧
        pyGet r (st "_index") = .ok (.str (st "ki")) ∧
        pyGet r (st "_id") = .ok (.str (st "d1")) ∧
        pyGet r (st "_type") = .ok (.str (st "dash")) ∧
        ∃ src2, pyGet r (st "_source") = .ok src2 ∧
          pyEq src2 (.obj [(st "a", .num 1)]) = true :=
  write_read_object_round_trip
    (Json.obj [(st "_index", .str (st "ki")), (st "_id", .str (st "d1")),
      (st "_type", .str (st "dash")), (st "_source", .obj [(st "a", .num 1)])])
    rfl (st "ki") (st "d1") (st "dash") (.obj [(st "a", .num 1)]) rfl rfl rfl rfl

/-- C7 (confirmed): reading back the package file written by
`write_pkg_to_file` recovers the `docs` list: it has one entry per document
of the input set, and as a set (up to Python `==`, which ignores the dict
key reordering done by `sort_keys=True`) it equals the set of the input
documents, independent of iteration order.  The well-formedness hypothesis
(distinct keys inside each document, automatic for values built by Python)
is needed for the JSON round trip. -/
theorem write_read_pkg_round_trip (name : Str) (objects : List (Str × Json))
    (hwf : ∀ kv ∈ objects, wfJ kv.2 = true) :
    ∃ ds, read_pkg_from_file (write_pkg_to_file name objects).2 = .ok (.arr ds) ∧
      ds.length = objects.length ∧
      (∀ x ∈ ds, ∃ kv ∈ objects, pyEq x kv.2 = true) ∧
      (∀ kv ∈ objects, ∃ x ∈ ds, pyEq x kv.2 = true) := by
  refine ⟨(objects.map (fun kv => kv.2)).map sortKeys, ?_, by simp, ?_, ?_⟩
  · have hwfpkg :
        wfJ (Json.obj [(st "docs", Json.arr (objects.map (fun kv => kv.2)))]) = true := by
      rw [show wfJ (Json.obj [(st "docs", Json.arr (objects.map (fun kv => kv.2)))]) =
        (nodupKeys [(st "docs", Json.arr (objects.map (fun kv => kv.2)))] &&
          wfMems [(st "docs", Json.arr (objects.map (fun kv => kv.2)))]) from by simp [wfJ]]
      rw [show wfMems [(st "docs", Json.arr (objects.map (fun kv => kv.2)))] =
        (wfJ (Json.arr (objects.map (fun kv => kv.2))) && wfMems []) from by simp [wfMems]]
      rw [show wfJ (Json.arr (objects.map (fun kv => kv.2))) =
        wfItems (objects.map (fun kv => kv.2)) from by simp [wfJ]]
      rw [show wfMems ([] : List (Str × Json)) = true from rfl]
      rw [show nodupKeys [(st "docs", Json.arr (objects.map (fun kv => kv.2)))] = true
        from rfl]
      simp only [Bool.true_and, Bool.and_true]
      rw [wfItems_iff]
      intro x hx
      obtain ⟨kv, hkv, rfl⟩ := List.mem_map.mp hx
      exact hwf kv hkv
    have hjl : jloads (json_dumps
          (Json.obj [(st "docs", Json.arr (objects.map (fun kv => kv.2)))]) ++ ['\n']) =
        some (sortKeys (Json.obj [(st "docs", Json.arr (objects.map (fun kv => kv.2)))])) := by
      rw [show json_dumps (Json.obj [(st "docs", Json.arr (objects.map (fun kv => kv.2)))]) =
        renderPlain 0 (sortKeys (Json.obj [(st "docs",
          Json.arr (objects.map (fun kv => kv.2)))])) from rfl]
      exact jloads_render _ (wfJ_sortKeys _ hwfpkg)
    have hsk : sortKeys (Json.obj [(st "docs", Json.arr (objects.map (fun kv => kv.2)))]) =
        Json.obj [(st "docs", Json.arr (sortKeysList (objects.map (fun kv => kv.2))))] := by
      simp [sortKeys, sortKeysMembers, sortByKey, insertByKey]
    have h2 : (write_pkg_to_file name objects).2 =
        json_dumps (Json.obj [(st "docs", Json.arr (objects.map (fun kv => kv.2)))]) ++
          ['\n'] := rfl
    rw [h2]
    unfold read_pkg_from_file read_object_from_file
    rw [hjl, hsk]
    show pyGet (Json.obj [(st "docs",
      Json.arr (sortKeysList (objects.map (fun kv => kv.2))))]) (st "docs") = _
    rw [pyGet_obj]
    show Except.ok (Json.arr (sortKeysList (objects.map (fun kv => kv.2)))) = _
    rw [sortKeysList_eq_map]
  · intro x hx
    obtain ⟨y, hy, rfl⟩ := List.mem_map.mp hx
    obtain ⟨kv, hkv, rfl⟩ := List.mem_map.mp hy
    exact ⟨kv, hkv, pyEq_sortKeys _ (hwf kv hkv)⟩
  · intro kv hkv
    refine ⟨sortKeys kv.2, ?_, pyEq_sortKeys _ (hwf kv hkv)⟩
    exact List.mem_map_of_mem sortKeys (List.mem_map_of_mem _ hkv)

theorem write_read_pkg_round_trip_witness :
    ∃ ds, read_pkg_from_file (write_pkg_to_file (st "bak")
        [(st "d1", Json.obj [(st "_id", .str (st "d1"))]),
         (st "d2", Json.obj [(st "_id", .str (st "d2"))])]).2 = .ok (.arr ds) ∧
      ds.length = 2 ∧
      (∀ x ∈ ds, ∃ kv ∈ [(st "d1", Json.obj [(st "_id", .str (st "d1"))]),
         (st "d2", Json.obj [(st "_id", .str (st "d2"))])], pyEq x kv.2 = true) ∧
      (∀ kv ∈ [(st "d1", Json.obj [(st "_id", .str (st "d1"))]),
         (st "d2", Json.obj [(st "_id", .str (st "d2"))])],
        ∃ x ∈ ds, pyEq x kv.2 = true) :=
  write_read_pkg_round_trip (st "bak")
    [(st "d1", Json.obj [(st "_id", .str (st "d1"))]),
     (st "d2", Json.obj [(st "_id", .str (st "d2"))])]
    (by
      intro kv h
      rcases List.mem_cons.mp h with h' | h'
      · subst h'; rfl
      · rcases List.mem_cons.mp h' with h2 | h2
        · subst h2; rfl
        · exact absurd h2 (List.not_mem_nil kv))

end Kibana
